import Mathlib

/-!
# xrootd-scitokens: shallow embedding of `src/scitokens.cpp`

The authorization plugin is embedded as pure Lean functions.

* A `std::string` / C string is a `List Char` (`Str`); a character stands for one byte and
  the terminating NUL is the end of the list.
* `uint64_t` values are natural numbers reduced modulo `2 ^ 64`, `long long` values are
  integers obtained through `toInt64`.
* The external token library, the INI reader, the JSON parser, the chained authorizer and
  the clock are parameters of the functions that use them.
-/

namespace XrdSciTokens

/-- A byte string (`std::string`, or a C string up to its terminating NUL). -/
abbrev Str := List Char

/-! ## Host framework declarations used by the plugin -/

/-- Access_Operation: the enumerators the switch of `AddPriv` lists. -/
inductive Access_Operation
  | AOP_Any | AOP_Chmod | AOP_Chown | AOP_Create | AOP_Delete | AOP_Insert | AOP_Lock
  | AOP_Mkdir | AOP_Read | AOP_Readdir | AOP_Rename | AOP_Stat | AOP_Update
  deriving DecidableEq, Repr

open Access_Operation

/-- The privilege constants of `XrdAccPrivs`, declared in a host header outside this
repository; the functions take the table as a parameter. -/
structure XrdAccPrivTable where
  XrdAccPriv_Chmod : Nat
  XrdAccPriv_Chown : Nat
  XrdAccPriv_Create : Nat
  XrdAccPriv_Delete : Nat
  XrdAccPriv_Insert : Nat
  XrdAccPriv_Lock : Nat
  XrdAccPriv_Mkdir : Nat
  XrdAccPriv_Lookup : Nat
  XrdAccPriv_Rename : Nat
  XrdAccPriv_Read : Nat
  XrdAccPriv_Readdir : Nat
  XrdAccPriv_Update : Nat
  XrdAccPriv_None : Nat

/-- Modelled from the spec: the host framework's privilege enumeration (`XrdAccPrivs`) is
declared outside this repository.  The spec fixes that "no privilege" is the zero mask and
that every operation has its own non-zero privilege; the numerals are the ones of the
XRootD header, and are used for closed examples only. -/
def hostPrivs : XrdAccPrivTable where
  XrdAccPriv_Chmod := 0x63
  XrdAccPriv_Chown := 0x63
  XrdAccPriv_Create := 0x62
  XrdAccPriv_Delete := 0x01
  XrdAccPriv_Insert := 0x02
  XrdAccPriv_Lock := 0x04
  XrdAccPriv_Mkdir := 0x02
  XrdAccPriv_Lookup := 0x08
  XrdAccPriv_Rename := 0x10
  XrdAccPriv_Read := 0x20
  XrdAccPriv_Readdir := 0x20
  XrdAccPriv_Update := 0x60
  XrdAccPriv_None := 0x00

/-- AccessRulesRaw: `std::vector<std::pair<Access_Operation, std::string>>`. -/
abbrev AccessRulesRaw := List (Access_Operation × Str)

/-! ## Machine integers -/

/-- The modulus of `uint64_t` arithmetic. -/
def UINT64_MOD : Nat := 2 ^ 64

/-- Conversion of a `long long` to `uint64_t`. -/
def toUInt64 (i : Int) : Nat := (i % (UINT64_MOD : Int)).toNat

/-- The `static_cast<int64_t>` of a `uint64_t` value (two's complement). -/
def toInt64 (n : Nat) : Int :=
  if n % UINT64_MOD < 2 ^ 63 then ((n % UINT64_MOD : Nat) : Int)
  else ((n % UINT64_MOD : Nat) : Int) - (UINT64_MOD : Int)

/-! ## The clock -/

/-- The places of the source that read `monotonic_time()`. -/
inductive ClockSite
  /-- `uint64_t now = monotonic_time()` in `Access`. -/
  | access
  /-- `expired()` on the entry found by `m_map.find(authz)` in `Access`. -/
  | lookup
  /-- `monotonic_time() - expiry` in `GenerateAcls`. -/
  | ttl
  /-- `expired()` on the cache entry stored under the given key, in the sweep of `Check`. -/
  | sweep (key : Str)
  /-- `m_next_clean = monotonic_time() + m_expiry_secs` in `Check`. -/
  | next_clean

/-- One reading of the clock per place that reads it. -/
abbrev Clock := ClockSite → Nat

/-- The value of `monotonic_time()` at a place of the source, as a `uint64_t`. -/
def monotonic_time (clk : Clock) (site : ClockSite) : Nat := clk site % UINT64_MOD

/-! ## AddPriv -/

/-- AddPriv: `new_privs |= XrdAccPriv_<op>`; `AOP_Any` adds nothing and `AOP_Stat` adds
`XrdAccPriv_Lookup`. -/
def AddPriv (P : XrdAccPrivTable) (op : Access_Operation) (privs : Nat) : Nat :=
  match op with
  | AOP_Any => privs
  | AOP_Chmod => privs ||| P.XrdAccPriv_Chmod
  | AOP_Chown => privs ||| P.XrdAccPriv_Chown
  | AOP_Create => privs ||| P.XrdAccPriv_Create
  | AOP_Delete => privs ||| P.XrdAccPriv_Delete
  | AOP_Insert => privs ||| P.XrdAccPriv_Insert
  | AOP_Lock => privs ||| P.XrdAccPriv_Lock
  | AOP_Mkdir => privs ||| P.XrdAccPriv_Mkdir
  | AOP_Read => privs ||| P.XrdAccPriv_Read
  | AOP_Readdir => privs ||| P.XrdAccPriv_Readdir
  | AOP_Rename => privs ||| P.XrdAccPriv_Rename
  | AOP_Stat => privs ||| P.XrdAccPriv_Lookup
  | AOP_Update => privs ||| P.XrdAccPriv_Update

/-! ## MakeCanonical and ParseCanonicalPaths -/

/-- The component stack after one pass of the `do` body of `MakeCanonical`: an empty or
`.` component is skipped, `..` pops the last component if there is one, any other
component is appended. -/
def MakeCanonical.push (components : List Str) (next_component : Str) : List Str :=
  if next_component = [] ∨ next_component = ['.'] then components
  else if next_component = ['.', '.'] then
    (if components ≠ [] then components.dropLast else components)
  else components ++ [next_component]

/-- The `do ... while (pos != npos)` loop of `MakeCanonical`.  `rest` is the part of `path`
from `pos` on; `find_first_of` returns `npos` exactly when the remainder after the skipped
slashes holds no `/`, that is when `rest2` is empty.  One unit of fuel is one pass of the
body; `none` means the fuel ran out. -/
def MakeCanonical.loop : Nat → Str → List Str → Option (List Str)
  | 0, _, _ => none
  | fuel + 1, rest, components =>
    let rest1 := rest.dropWhile (fun c => c == '/')
    let next_component := rest1.takeWhile (fun c => c != '/')
    let rest2 := rest1.dropWhile (fun c => c != '/')
    let components1 := MakeCanonical.push components next_component
    if rest2 = [] then some components1
    else MakeCanonical.loop fuel rest2 components1

/-- The result string built from the component stack: `/` for an empty stack, otherwise
`"/" << comp` for every component. -/
def MakeCanonical.render (components : List Str) : Str :=
  if components = [] then ['/'] else components.flatMap (fun comp => '/' :: comp)

/-- MakeCanonical: `none` is the `false` return; `some result` is `true` with `result`. -/
def MakeCanonical (path : Str) : Option Str :=
  if path = [] ∨ path.head? ≠ some '/' then none
  else (MakeCanonical.loop (path.length + 1) path []).map MakeCanonical.render

/-- The `do ... while` loop of `ParseCanonicalPaths`; `rest` is the part of the text from
`pos` on. -/
def ParseCanonicalPaths.loop : Nat → Str → List Str → Option (List Str)
  | 0, _, _ => none
  | fuel + 1, rest, results =>
    let rest1 := rest.dropWhile (fun c => c == ',' || c == ' ')
    let next_path := rest1.takeWhile (fun c => !(c == ',' || c == ' '))
    let rest2 := rest1.dropWhile (fun c => !(c == ',' || c == ' '))
    let results1 :=
      if next_path ≠ [] then
        match MakeCanonical next_path with
        | some canonical_path => results ++ [canonical_path]
        | none => results
      else results
    if rest2 = [] then some results1
    else ParseCanonicalPaths.loop fuel rest2 results1

/-- ParseCanonicalPaths: the list `results` after the call (`none`: out of fuel). -/
def ParseCanonicalPaths (path : Str) (results : List Str) : Option (List Str) :=
  ParseCanonicalPaths.loop (path.length + 1) path results

/-! ## IssuerConfig and XrdAccRules -/

/-- IssuerConfig. -/
structure IssuerConfig where
  m_map_subject : Bool
  m_name : Str
  m_url : Str
  m_default_user : Str
  m_base_paths : List Str
  m_restricted_paths : List Str

/-- XrdAccRules. -/
structure XrdAccRules where
  m_rules : AccessRulesRaw
  m_expiry_time : Nat
  m_username : Str

/-- The test `!path.compare(0, n, str, 0, n)`: the first `n` characters of both strings
(fewer when a string is shorter) are equal. -/
def compare_eq (path : Str) (n : Nat) (str : Str) : Bool :=
  decide (path.take n = str.take n)

/-- XrdAccRules::apply.  The operation parameter is unnamed in the source and is not used
in the body. -/
def XrdAccRules.apply (P : XrdAccPrivTable) (self : XrdAccRules) (_oper : Access_Operation)
    (path : Str) : Nat :=
  self.m_rules.foldl
    (fun privs rule =>
      if compare_eq path rule.2.length rule.2 then AddPriv P rule.1 privs else privs)
    P.XrdAccPriv_None

/-- XrdAccRules::expired, with the clock reading taken at `site`. -/
def XrdAccRules.expired (clk : Clock) (site : ClockSite) (self : XrdAccRules) : Bool :=
  decide (monotonic_time clk site > self.m_expiry_time)

/-- XrdAccRules::parse: appends every entry of `rules` to `m_rules`. -/
def XrdAccRules.parse (self : XrdAccRules) (rules : AccessRulesRaw) : XrdAccRules :=
  { self with m_rules := self.m_rules ++ rules }

/-- XrdAccRules::get_username. -/
def XrdAccRules.get_username (self : XrdAccRules) : Str := self.m_username

/-! ## External collaborators -/

/-- One entry of the `Acl` array returned by the token library. -/
structure Acl where
  resource : Str
  authz : Str

/-- The functions of the token library (`scitokens/scitokens.h`) that `GenerateAcls` calls.
`none` is a non-zero (error) return.  The `Acl` array is the list of its entries before the
terminating entry. -/
structure SciTokensLib (Token Enforcer : Type) where
  scitoken_deserialize : Str → List Str → Option Token
  scitoken_get_expiration : Token → Option Int
  scitoken_get_claim_string : Token → Str → Option Str
  enforcer_create : Str → List Str → Option Enforcer
  enforcer_generate_acls : Enforcer → Token → Option (List Acl)

/-- The part of `INIReader` that `Reconfig` uses, for the file it has opened. -/
structure INIReader where
  ParseError : Int
  Sections : List Str
  Get : Str → Str → Str → Str
  GetBoolean : Str → Str → Bool → Bool

/-- An element of a parsed JSON array: a string, or a value of another type. -/
inductive JsonItem
  | str (s : Str)
  | other

/-- A parsed JSON value, as far as `Reconfig` inspects it: an array, or anything else. -/
inductive JsonValue
  | array (items : List JsonItem)
  | other

/-- XrdSecEntity: the field the plugin reads and writes. -/
structure XrdSecEntity where
  name : Option Str

/-- XrdOucEnv: the lookup the plugin uses. -/
structure XrdOucEnv where
  Get : Str → Option Str

/-- The chained authorizer's `Access`. -/
abbrev ChainAccess := XrdSecEntity → Str → Access_Operation → Option XrdOucEnv → Nat

/-- The calls to external collaborators that the embedding records, in call order. -/
inductive ExtCall
  /-- `scitoken_deserialize(token, ..., issuers, ...)`. -/
  | scitoken_deserialize (token : Str) (issuers : List Str)
  /-- `m_chain->Access(Entity, path, oper, env)`. -/
  | chain_Access (Entity : XrdSecEntity) (path : Str) (oper : Access_Operation)
      (env : Option XrdOucEnv)

/-- What a request finds outside the plugin object: the token library, the clock, the
reader for the configuration file as it is on disk, and the JSON parser (which returns the
parsed value and an error text, empty on success); and the two things the source leaves to
the C++ runtime.

* `after_erase`: the sweep loop of `Check` calls `m_map.erase(iter)` and then increments the
  erased iterator, which the C++ standard leaves undefined.  `after_erase m` is the cache the
  loop leaves behind when `m` is the cache right after that first erase.  A crash is not
  modelled.
* `try_raises`: `some calls` when evaluating the `try` block of `Access` raises a
  `std::exception` (an allocation fails) after the recorded calls `calls`; `none` when it
  raises nothing. -/
structure Host (Token Enforcer : Type) where
  lib : SciTokensLib Token Enforcer
  clk : Clock
  reader : INIReader
  picojson_parse : Str → JsonValue × Str
  after_erase : List (Str × XrdAccRules) → List (Str × XrdAccRules)
  try_raises : Option (List ExtCall)

/-- XrdAccSciTokens: the data members that carry state or configuration.  `m_map` and
`m_issuers` are association lists with at most one entry per key, `m_map` in key order (the
iteration order of `std::map`); the two `_array` members hold the entries written before
the terminating `nullptr`. -/
structure XrdAccSciTokens where
  m_audiences : List Str
  m_audiences_array : List Str
  m_map : List (Str × XrdAccRules)
  m_chain : Option ChainAccess
  m_valid_issuers : List Str
  m_valid_issuers_array : List Str
  m_issuers : List (Str × IssuerConfig)
  m_next_clean : Nat

/-- The constant `m_expiry_secs`. -/
def m_expiry_secs : Nat := 60

/-- The test `!strncmp(s1, s2, n)`: the first `n` characters of the two C strings (fewer
when a string ends earlier) are equal. -/
def strncmp_eq (s1 s2 : Str) (n : Nat) : Bool :=
  decide (s1.take n = s2.take n)

/-- The lookup `find` of a map: the value stored under `key`, if there is one. -/
def map_find {α : Type} (m : List (Str × α)) (key : Str) : Option α :=
  (m.find? (fun e => decide (e.1 = key))).map Prod.snd

/-- The assignment `m[key] = value` of `std::map`: overwrite the entry of `key`, or insert
one at its place in key order. -/
def map_assign {α : Type} : List (Str × α) → Str → α → List (Str × α)
  | [], key, value => [(key, value)]
  | e :: rest, key, value =>
    if e.1 = key then (key, value) :: rest
    else if key < e.1 then (key, value) :: e :: rest
    else e :: map_assign rest key value

/-- The call `emplace(key, value)` of `std::unordered_map`: insert unless the key is
present. -/
def map_emplace {α : Type} (m : List (Str × α)) (key : Str) (value : α) : List (Str × α) :=
  if (m.find? (fun e => decide (e.1 = key))).isSome then m else m ++ [(key, value)]

/-! ## GenerateAcls -/

/-- The character test of the structural check: none of upper-case letter, lower-case
letter, digit, `+`, `/`, `-`, `_`. -/
def GenerateAcls.bad_char (c : Char) : Bool :=
  !(decide (c.toNat ≥ 65) && decide (c.toNat ≤ 90)) &&
  !(decide (c.toNat ≥ 97) && decide (c.toNat ≤ 122)) &&
  !(decide (c.toNat ≥ 48) && decide (c.toNat ≤ 57)) &&
  decide (c.toNat ≠ 43) && decide (c.toNat ≠ 47) &&
  decide (c.toNat ≠ 45) && decide (c.toNat ≠ 95)

/-- The `for` loop over the characters after the bearer prefix; returns
`(separator_count, looks_good)` as they are when the loop is left. -/
def GenerateAcls.scan : Str → Nat → Nat × Bool
  | [], separator_count => (separator_count, true)
  | cur_char :: more, separator_count =>
    if cur_char = '.' then
      if separator_count + 1 > 2 then (separator_count + 1, true)
      else GenerateAcls.scan more (separator_count + 1)
    else if GenerateAcls.bad_char cur_char then (separator_count, false)
    else GenerateAcls.scan more separator_count

/-- The structural check of `GenerateAcls` (lines 293-320): `true` when the function goes
on to the token library, `false` when it returns `false` before. -/
def GenerateAcls.looks_like_jwt (authz : Str) : Bool :=
  if !strncmp_eq authz "Bearer%20".toList 9 then false
  else
    let r := GenerateAcls.scan (authz.drop 9) 0
    !(decide (r.1 ≠ 2) || !r.2)

/-- The value left in `expiry` by lines 341-346, for the clock reading `t` and the
expiration `expiry` returned by the library. -/
def GenerateAcls.cache_ttl (t : Nat) (expiry : Int) : Int :=
  if expiry > 0 then
    max (toInt64 ((t + UINT64_MOD - toUInt64 expiry) % UINT64_MOD)) 60
  else 60

/-- The loop over `m_restricted_paths` with its `break`. -/
def GenerateAcls.found_path (acl_path : Str) : List Str → Bool
  | [] => false
  | restricted_path :: more =>
    if strncmp_eq acl_path restricted_path restricted_path.length then true
    else GenerateAcls.found_path acl_path more

/-- The body of the loop over `m_base_paths` for one base path. -/
def GenerateAcls.base_path_body (acl_path acl_authz : Str) (xrd_rules : AccessRulesRaw)
    (base_path : Str) : AccessRulesRaw :=
  if acl_path.head? ≠ some '/' then xrd_rules
  else
    let path := (MakeCanonical (base_path ++ acl_path)).getD []
    if acl_authz = "read".toList then
      xrd_rules ++ [(AOP_Read, path), (AOP_Stat, path)]
    else if acl_authz = "write".toList then
      xrd_rules ++ [(AOP_Update, path), (AOP_Create, path)]
    else xrd_rules

/-- The body of the `while` loop over the `Acl` array for one entry. -/
def GenerateAcls.acl_body (config : IssuerConfig) (xrd_rules : AccessRulesRaw) (acl : Acl) :
    AccessRulesRaw :=
  if config.m_restricted_paths ≠ [] ∧
      GenerateAcls.found_path acl.resource config.m_restricted_paths = false then xrd_rules
  else
    config.m_base_paths.foldl (GenerateAcls.base_path_body acl.resource acl.authz) xrd_rules

/-- The list `xrd_rules` built by lines 403-430. -/
def GenerateAcls.xrd_rules (config : IssuerConfig) (acls : List Acl) : AccessRulesRaw :=
  acls.foldl (GenerateAcls.acl_body config) []

/-- The three output parameters of a `GenerateAcls` call that returns `true`. -/
structure GenerateAclsResult where
  cache_expiry : Nat
  rules : AccessRulesRaw
  username : Str

/-- The part of `GenerateAcls` after the structural check (lines 322-438). -/
def GenerateAcls.verify {Token Enforcer : Type} (h : Host Token Enforcer)
    (self : XrdAccSciTokens) (authz : Str) : Option GenerateAclsResult :=
  match h.lib.scitoken_deserialize (authz.drop 9) self.m_valid_issuers_array with
  | none => none
  | some token =>
    match h.lib.scitoken_get_expiration token with
    | none => none
    | some expiry0 =>
      let expiry := GenerateAcls.cache_ttl (monotonic_time h.clk ClockSite.ttl) expiry0
      match h.lib.scitoken_get_claim_string token "iss".toList with
      | none => none
      | some issuer =>
        match h.lib.enforcer_create issuer self.m_audiences_array with
        | none => none
        | some enf =>
          match h.lib.enforcer_generate_acls enf token with
          | none => none
          | some acls =>
            match map_find self.m_issuers issuer with
            | none => none
            | some config =>
              let token_username : Option Str :=
                if config.m_map_subject then
                  h.lib.scitoken_get_claim_string token "sub".toList
                else some config.m_default_user
              match token_username with
              | none => none
              | some username =>
                some { cache_expiry := toUInt64 expiry
                       rules := GenerateAcls.xrd_rules config acls
                       username := username }

/-- XrdAccSciTokens::GenerateAcls: `none` is the `false` return; the second component lists
the calls made to the verifier's entry point. -/
def GenerateAcls {Token Enforcer : Type} (h : Host Token Enforcer) (self : XrdAccSciTokens)
    (authz : Str) : Option GenerateAclsResult × List ExtCall :=
  if GenerateAcls.looks_like_jwt authz then
    (GenerateAcls.verify h self authz,
      [ExtCall.scitoken_deserialize (authz.drop 9) self.m_valid_issuers_array])
  else (none, [])

/-! ## Reconfig -/

/-- The function `std::tolower` on one byte (the "C" locale). -/
def tolower (c : Char) : Char :=
  if 65 ≤ c.toNat ∧ c.toNat ≤ 90 then Char.ofNat (c.toNat + 32) else c

/-- The function `std::isspace` on one byte (the "C" locale). -/
def isspace (c : Char) : Bool :=
  decide (c.toNat = 32) || (decide (9 ≤ c.toNat) && decide (c.toNat ≤ 13))

/-- The `do ... while` loop that splits the `audience` value (lines 490-499). -/
def Reconfig.audience_loop : Nat → Str → List Str → Option (List Str)
  | 0, _, _ => none
  | fuel + 1, rest, audiences =>
    let rest1 := rest.dropWhile (fun c => c == ',' || c == ' ')
    let next_aud := rest1.takeWhile (fun c => !(c == ',' || c == ' '))
    let rest2 := rest1.dropWhile (fun c => !(c == ',' || c == ' '))
    let audiences1 := if next_aud ≠ [] then audiences ++ [next_aud] else audiences
    if rest2 = [] then some audiences1
    else Reconfig.audience_loop fuel rest2 audiences1

/-- The loop over the elements of the `audience_json` array; `none` is `return false`. -/
def Reconfig.json_audiences : List JsonItem → List Str → Option (List Str)
  | [], audiences => some audiences
  | JsonItem.str s :: more, audiences => Reconfig.json_audiences more (audiences ++ [s])
  | JsonItem.other :: _, _ => none

/-- The `global` part of the section loop body (lines 487-521); `none` is `return false`. -/
def Reconfig.global_section (reader : INIReader) (picojson_parse : Str → JsonValue × Str)
    (section_name : Str) (audiences : List Str) : Option (List Str) :=
  let audience := reader.Get section_name "audience".toList []
  let audiences1 :=
    if audience ≠ [] then
      (Reconfig.audience_loop (audience.length + 1) audience audiences).getD audiences
    else audiences
  let audience_json := reader.Get section_name "audience_json".toList []
  if audience_json ≠ [] then
    let parsed := picojson_parse audience_json
    if parsed.2 ≠ [] then none
    else
      match parsed.1 with
      | JsonValue.other => none
      | JsonValue.array items => Reconfig.json_audiences items audiences1
  else some audiences1

/-- The issuer part of the section loop body (lines 523-563): the issuer map after the
pass. -/
def Reconfig.issuer_section (reader : INIReader) (section_name : Str)
    (issuers : List (Str × IssuerConfig)) : List (Str × IssuerConfig) :=
  if (section_name.map tolower).take 7 ≠ "issuer ".toList then issuers
  else
    let issuer := reader.Get section_name "issuer".toList []
    if issuer = [] then issuers
    else
      let base_path := reader.Get section_name "base_path".toList []
      if base_path = [] then issuers
      else
        let name := (section_name.drop 7).dropWhile isspace
        if name = [] then issuers
        else
          let base_paths := (ParseCanonicalPaths base_path []).getD []
          let restricted_path := reader.Get section_name "restricted_path".toList []
          let restricted_paths :=
            if restricted_path ≠ [] then (ParseCanonicalPaths restricted_path []).getD []
            else []
          let default_user := reader.Get section_name "default_user".toList []
          let map_subject := reader.GetBoolean section_name "map_subject".toList false
          map_emplace issuers issuer
            { m_map_subject := map_subject
              m_name := name
              m_url := issuer
              m_default_user := default_user
              m_base_paths := base_paths
              m_restricted_paths := restricted_paths }

/-- The loop over `reader.Sections()` (lines 482-564); `none` is `return false`. -/
def Reconfig.sections (reader : INIReader) (picojson_parse : Str → JsonValue × Str) :
    List Str → List Str → List (Str × IssuerConfig) →
      Option (List Str × List (Str × IssuerConfig))
  | [], audiences, issuers => some (audiences, issuers)
  | section_name :: more, audiences, issuers =>
    let global_result :=
      if (section_name.map tolower).take 6 = "global".toList then
        Reconfig.global_section reader picojson_parse section_name audiences
      else some audiences
    match global_result with
    | none => none
    | some audiences1 =>
      Reconfig.sections reader picojson_parse more audiences1
        (Reconfig.issuer_section reader section_name issuers)

/-- The block of `Reconfig` under the write lock (lines 570-594). -/
def Reconfig.install (self : XrdAccSciTokens) (audiences : List Str)
    (issuers : List (Str × IssuerConfig)) : XrdAccSciTokens :=
  let m_audiences := audiences
  let m_audiences_array := m_audiences.map (fun audience => audience)
  let m_issuers := issuers
  let m_valid_issuers : List Str := []
  let m_valid_issuers_array := m_valid_issuers.map (fun issuer => issuer)
  { self with
    m_audiences := m_audiences
    m_audiences_array := m_audiences_array
    m_issuers := m_issuers
    m_valid_issuers := m_valid_issuers
    m_valid_issuers_array := m_valid_issuers_array }

/-- XrdAccSciTokens::Reconfig from the point where the configuration file is opened
(line 468): the return value and the object afterwards.  The lines before only choose the
file name. -/
def Reconfig {Token Enforcer : Type} (h : Host Token Enforcer) (self : XrdAccSciTokens) :
    Bool × XrdAccSciTokens :=
  if h.reader.ParseError < 0 then (false, self)
  else if h.reader.ParseError ≠ 0 then (false, self)
  else
    match Reconfig.sections h.reader h.picojson_parse h.reader.Sections [] [] with
    | none => (false, self)
    | some (audiences, issuers) =>
      if issuers.isEmpty then (false, self)
      else (true, Reconfig.install self audiences issuers)

/-! ## Check and Access -/

/-- The `for` loop of `Check` (lines 602-606): `visited` are the entries the iterator has
passed, `rest` the entries from the iterator on.  An entry that is not expired is passed; at
the first expired entry the loop erases it and increments the erased iterator, and what it
leaves behind is `after_erase` of the cache without that entry. -/
def Check.sweep (clk : Clock)
    (after_erase : List (Str × XrdAccRules) → List (Str × XrdAccRules)) :
    List (Str × XrdAccRules) → List (Str × XrdAccRules) → List (Str × XrdAccRules)
  | visited, [] => visited
  | visited, e :: rest =>
    if XrdAccRules.expired clk (ClockSite.sweep e.1) e.2 then after_erase (visited ++ rest)
    else Check.sweep clk after_erase (visited ++ [e]) rest

/-- XrdAccSciTokens::Check: the object afterwards.  The return value of `Reconfig()` is
dropped, as in the source. -/
def Check {Token Enforcer : Type} (h : Host Token Enforcer) (self : XrdAccSciTokens)
    (now : Nat) : XrdAccSciTokens :=
  if now ≤ self.m_next_clean then self
  else
    let swept := { self with m_map := Check.sweep h.clk h.after_erase [] self.m_map }
    let reconfigured := (Reconfig h swept).2
    { reconfigured with
      m_next_clean := (monotonic_time h.clk ClockSite.next_clean + m_expiry_secs) % UINT64_MOD }

/-- What one call of `Access` leaves behind: the returned privileges, the object, the
caller's entity, and the recorded external calls in order. -/
structure AccessResult where
  privs : Nat
  self : XrdAccSciTokens
  Entity : XrdSecEntity
  calls : List ExtCall

/-- The expression `m_chain ? m_chain->Access(Entity, path, oper, env) : XrdAccPriv_None`. -/
def Access.delegate (P : XrdAccPrivTable) (self : XrdAccSciTokens) (Entity : XrdSecEntity)
    (path : Str) (oper : Access_Operation) (env : Option XrdOucEnv)
    (calls : List ExtCall) : AccessResult :=
  match self.m_chain with
  | some chain =>
    { privs := chain Entity path oper env, self := self, Entity := Entity,
      calls := calls ++ [ExtCall.chain_Access Entity path oper env] }
  | none => { privs := P.XrdAccPriv_None, self := self, Entity := Entity, calls := calls }

/-- The end of `Access` (lines 267-272), once `access_rules` is set. -/
def Access.decide_with (P : XrdAccPrivTable) (self : XrdAccSciTokens) (Entity : XrdSecEntity)
    (path : Str) (oper : Access_Operation) (env : Option XrdOucEnv)
    (access_rules : XrdAccRules) (calls : List ExtCall) : AccessResult :=
  let username := access_rules.get_username
  let Entity1 : XrdSecEntity :=
    if username ≠ [] ∧ Entity.name = none then { Entity with name := some username }
    else Entity
  let result := access_rules.apply P oper path
  if result = P.XrdAccPriv_None ∧ self.m_chain.isSome then
    Access.delegate P self Entity1 path oper env calls
  else { privs := result, self := self, Entity := Entity1, calls := calls }

/-- The cache lookup of `Access` (lines 242-248): the rules stored under the credential,
unless they are expired. -/
def Access.cache_lookup (clk : Clock) (self : XrdAccSciTokens) (authz : Str) :
    Option XrdAccRules :=
  match map_find self.m_map authz with
  | some rules =>
    if !(XrdAccRules.expired clk ClockSite.lookup rules) then some rules else none
  | none => none

/-- The part of `Access` after a cache miss (lines 249-272): the `try` block with its
`catch` branch, the insertion into `m_map` and the end of the function.  `self1` is the
object after `Check`, `now` the clock reading of `Access`. -/
def Access.on_miss {Token Enforcer : Type} (P : XrdAccPrivTable) (h : Host Token Enforcer)
    (self1 : XrdAccSciTokens) (Entity : XrdSecEntity) (path : Str) (oper : Access_Operation)
    (env : Option XrdOucEnv) (authz : Str) (now : Nat) : AccessResult :=
  match h.try_raises with
  | some calls => Access.delegate P self1 Entity path oper env calls
  | none =>
    match GenerateAcls h self1 authz with
    | (some r, calls) =>
      let access_rules :=
        XrdAccRules.parse
          { m_rules := [], m_expiry_time := (now + r.cache_expiry) % UINT64_MOD,
            m_username := r.username } r.rules
      let self2 := { self1 with m_map := map_assign self1.m_map authz access_rules }
      Access.decide_with P self2 Entity path oper env access_rules calls
    | (none, calls) => Access.delegate P self1 Entity path oper env calls

/-- XrdAccSciTokens::Access. -/
def Access {Token Enforcer : Type} (P : XrdAccPrivTable) (h : Host Token Enforcer)
    (self : XrdAccSciTokens) (Entity : XrdSecEntity) (path : Str) (oper : Access_Operation)
    (env : Option XrdOucEnv) : AccessResult :=
  let authz : Option Str :=
    match env with
    | some e => e.Get "authz".toList
    | none => none
  match authz with
  | none => Access.delegate P self Entity path oper env []
  | some authz =>
    let now := monotonic_time h.clk ClockSite.access
    let self1 := Check h self now
    match Access.cache_lookup h.clk self1 authz with
    | some access_rules => Access.decide_with P self1 Entity path oper env access_rules []
    | none => Access.on_miss P h self1 Entity path oper env authz now

/-! ## Definitions used to state the properties -/

/-- The segments of a path: the maximal runs without `/` between consecutive `/`s (empty
runs included). -/
def segments : Str → List Str
  | [] => [[]]
  | c :: cs =>
    if c = '/' then [] :: segments cs
    else
      match segments cs with
      | s :: ss => (c :: s) :: ss
      | [] => [[c]]

/-- A component that `MakeCanonical` retains: not empty, not `.`, not `..`, without `/`. -/
def valid_segment (s : Str) : Prop :=
  s ≠ [] ∧ s ≠ ['.'] ∧ s ≠ ['.', '.'] ∧ ∀ c ∈ s, c ≠ '/'

/-- No `..` among the given segments comes at a point where fewer than one segment is
retained, counting `depth` segments as retained at the start. -/
def climb_free : List Str → Nat → Bool
  | [], _ => true
  | seg :: more, depth =>
    if seg = [] ∨ seg = ['.'] then climb_free more depth
    else if seg = ['.', '.'] then
      (if depth = 0 then false else climb_free more (depth - 1))
    else climb_free more (depth + 1)

/-- The path never climbs above its own root: each `..` segment has a retained segment of
the same path to pop. -/
def stays_under_root (path : Str) : Bool := climb_free (segments path) 0

/-- The matching rule of the specification (section 4.4): OR, from "no privilege", of the
privilege of the rules whose operation equals `operation` and whose stored path is a
literal beginning of `path`. -/
def spec_match (P : XrdAccPrivTable) (rules : AccessRulesRaw) (operation : Access_Operation)
    (path : Str) : Nat :=
  (rules.filter (fun rule => decide (rule.1 = operation) && decide (rule.2 <+: path))).foldl
    (fun privs rule => AddPriv P rule.1 privs) P.XrdAccPriv_None

/-- The rules of one entitlement under one base path, in the words of the specification
(section 4.3, step 3). -/
def spec_base_path_rules (resource_path action base_path : Str) : AccessRulesRaw :=
  match MakeCanonical (base_path ++ resource_path) with
  | some path =>
    if action = "read".toList then [(AOP_Read, path), (AOP_Stat, path)]
    else if action = "write".toList then [(AOP_Update, path), (AOP_Create, path)]
    else []
  | none => []

/-- The rules of one entitlement, in the words of the specification (section 4.3). -/
def spec_entitlement_rules (config : IssuerConfig) (acl : Acl) : AccessRulesRaw :=
  if config.m_restricted_paths ≠ [] ∧
      ¬ (∃ rp ∈ config.m_restricted_paths, rp <+: acl.resource) then []
  else if acl.resource.head? ≠ some '/' then []
  else config.m_base_paths.flatMap (spec_base_path_rules acl.resource acl.authz)

/-- The reference expansion of the specification: entitlement order, then base-path
order. -/
def spec_rules (config : IssuerConfig) (acls : List Acl) : AccessRulesRaw :=
  acls.flatMap (spec_entitlement_rules config)

/-- The character set the specification names for the structural check:
`[A-Za-z0-9+/=_-]`. -/
def spec_charset (c : Char) : Bool :=
  (decide ('A' ≤ c) && decide (c ≤ 'Z')) || (decide ('a' ≤ c) && decide (c ≤ 'z')) ||
  (decide ('0' ≤ c) && decide (c ≤ '9')) ||
  decide (c = '+') || decide (c = '/') || decide (c = '=') || decide (c = '_') ||
  decide (c = '-')

/-- The character set of the structural check without `=`: `[A-Za-z0-9+/_-]`. -/
def jwt_charset (c : Char) : Bool :=
  (decide ('A' ≤ c) && decide (c ≤ 'Z')) || (decide ('a' ≤ c) && decide (c ≤ 'z')) ||
  (decide ('0' ≤ c) && decide (c ≤ '9')) ||
  decide (c = '+') || decide (c = '/') || decide (c = '_') || decide (c = '-')

/-- Whether a recorded call is a call of the chained authorizer. -/
def ExtCall.is_chain_call : ExtCall → Bool
  | ExtCall.chain_Access _ _ _ _ => true
  | ExtCall.scitoken_deserialize _ _ => false

/-! ## Scenarios -/

/-- The reader of a configuration file with the single section `[Issuer demo]`, holding
`issuer = https://demo.scitokens.org`, `base_path = /store`, `default_user = alice`. -/
def scenarioReader : INIReader where
  ParseError := 0
  Sections := ["Issuer demo".toList]
  Get := fun _ name dflt =>
    if name = "issuer".toList then "https://demo.scitokens.org".toList
    else if name = "base_path".toList then "/store".toList
    else if name = "default_user".toList then "alice".toList
    else dflt
  GetBoolean := fun _ _ dflt => dflt

/-- A token library that verifies every token, reports the expiration `expiry`, the issuer
`https://demo.scitokens.org`, no subject, and the given entitlements. -/
def scenarioLib (expiry : Int) (acls : List Acl) : SciTokensLib Unit Unit where
  scitoken_deserialize := fun _ _ => some ()
  scitoken_get_expiration := fun _ => some expiry
  scitoken_get_claim_string := fun _ name =>
    if name = "iss".toList then some "https://demo.scitokens.org".toList else none
  enforcer_create := fun _ _ => some ()
  enforcer_generate_acls := fun _ _ => some acls

/-- The surroundings of the end-to-end scenario: the clock reads `now` everywhere, the
sweep loop ends right after an erase, and no exception is raised. -/
def scenarioHost (now : Nat) (expiry : Int) (acls : List Acl) : Host Unit Unit where
  lib := scenarioLib expiry acls
  clk := fun _ => now
  reader := scenarioReader
  picojson_parse := fun _ => (JsonValue.other, [])
  after_erase := fun m => m
  try_raises := none

/-- The plugin object as the constructor leaves it before its first `Reconfig`, with the
given chained authorizer and `m_next_clean = next_clean`. -/
def freshObject (chain : Option ChainAccess) (next_clean : Nat) : XrdAccSciTokens where
  m_audiences := []
  m_audiences_array := []
  m_map := []
  m_chain := chain
  m_valid_issuers := []
  m_valid_issuers_array := []
  m_issuers := []
  m_next_clean := next_clean

/-- The plugin object of the end-to-end scenario: constructed at time 1000 and configured
by `Reconfig` from `scenarioReader`. -/
def scenarioObject (chain : Option ChainAccess) : XrdAccSciTokens :=
  (Reconfig (scenarioHost 1000 5000 []) (freshObject chain 1060)).2

/-- A request environment whose `authz` value is the given credential. -/
def envWithAuthz (authz : Str) : XrdOucEnv where
  Get := fun key => if key = "authz".toList then some authz else none

/-- The rules one action stands for on one path: Read and Stat for `read`, Update and
Create for `write`, none for any other action. -/
def action_rules (action path : Str) : AccessRulesRaw :=
  if action = "read".toList then [(AOP_Read, path), (AOP_Stat, path)]
  else if action = "write".toList then [(AOP_Update, path), (AOP_Create, path)]
  else []

/-- An issuer configuration with the base paths `/store` and `/cache` and the restricted
path `/proj`. -/
def restrictedConfig : IssuerConfig where
  m_map_subject := false
  m_name := "demo".toList
  m_url := "https://demo.scitokens.org".toList
  m_default_user := "alice".toList
  m_base_paths := ["/store".toList, "/cache".toList]
  m_restricted_paths := ["/proj".toList]

/-- The reader of a configuration file with the single section `[Issuer demo]`, holding
`issuer = https://demo.scitokens.org` and the relative `base_path = store`. -/
def relativeBaseReader : INIReader where
  ParseError := 0
  Sections := ["Issuer demo".toList]
  Get := fun _ name dflt =>
    if name = "issuer".toList then "https://demo.scitokens.org".toList
    else if name = "base_path".toList then "store".toList
    else dflt
  GetBoolean := fun _ _ dflt => dflt

/-- The surroundings of a reload from `relativeBaseReader`. -/
def relativeBaseHost : Host Unit Unit where
  lib := scenarioLib 5000 []
  clk := fun _ => 1000
  reader := relativeBaseReader
  picojson_parse := fun _ => (JsonValue.other, [])
  after_erase := fun m => m
  try_raises := none

/-- The scenario object after a request with the credential `Bearer%20aa.bb.cc` has been
verified: its cache holds the rule set `[(Read, "/store/data"), (Stat, "/store/data")]` of
user `alice` with the expiry instant `expiry`. -/
def cachedObject (chain : Option ChainAccess) (expiry : Nat) : XrdAccSciTokens :=
  { scenarioObject chain with
    m_map :=
      [("Bearer%20aa.bb.cc".toList,
        ⟨[(AOP_Read, "/store/data".toList), (AOP_Stat, "/store/data".toList)], expiry,
          "alice".toList⟩)] }

/-- Whether a recorded call is a call of the verifier's entry point. -/
def ExtCall.is_verifier_call : ExtCall → Bool
  | ExtCall.scitoken_deserialize _ _ => true
  | ExtCall.chain_Access _ _ _ _ => false

/-- The `audience_json` value of a section is malformed: it is set, and the JSON parser
reports an error, or yields something that is not an array, or an array with an element that
is not a string. -/
def audience_json_malformed (reader : INIReader) (picojson_parse : Str → JsonValue × Str)
    (section_name : Str) : Prop :=
  reader.Get section_name "audience_json".toList [] ≠ [] ∧
  ((picojson_parse (reader.Get section_name "audience_json".toList [])).2 ≠ [] ∨
    (picojson_parse (reader.Get section_name "audience_json".toList [])).1 = JsonValue.other ∨
    ∃ items,
      (picojson_parse (reader.Get section_name "audience_json".toList [])).1 =
        JsonValue.array items ∧ JsonItem.other ∈ items)

/-- A section resolves to an issuer: its name starts with `issuer ` (in any case) and goes
on with something other than white space, and its `issuer` and `base_path` values are
set. -/
def issuer_section_resolves (reader : INIReader) (section_name : Str) : Prop :=
  (section_name.map tolower).take 7 = "issuer ".toList ∧
  reader.Get section_name "issuer".toList [] ≠ [] ∧
  reader.Get section_name "base_path".toList [] ≠ [] ∧
  (section_name.drop 7).dropWhile isspace ≠ []

/-- The reader of a configuration file with the sections `[Global]` and `[Issuer demo]`: it
is `scenarioReader` with an `audience_json` value, `[1]`. -/
def badJsonReader : INIReader where
  ParseError := 0
  Sections := ["Global".toList, "Issuer demo".toList]
  Get := fun section_name name dflt =>
    if name = "audience_json".toList then "[1]".toList
    else scenarioReader.Get section_name name dflt
  GetBoolean := fun _ _ dflt => dflt

/-- The surroundings of a reload from `badJsonReader`: the JSON parser yields an array whose
element is not a string. -/
def badJsonHost : Host Unit Unit where
  lib := scenarioLib 5000 []
  clk := fun _ => 1000
  reader := badJsonReader
  picojson_parse := fun _ => (JsonValue.array [JsonItem.other], [])
  after_erase := fun m => m
  try_raises := none

/-- The tokens of a path list, in the words of the specification: the pieces of the text
between the characters `,` and space, without the empty pieces. -/
def path_tokens (text : Str) : List Str :=
  (text.splitOnP (fun c => c == ',' || c == ' ')).filter (fun t => decide (t ≠ []))

/-- The scenario object with two cached rule sets, stored under `Bearer%20aa.bb.cc` with
expiry instant 1500 and under `Bearer%20dd.ee.ff` with expiry instant 1600, and with
`m_next_clean = 1060`. -/
def staleObject : XrdAccSciTokens :=
  { scenarioObject none with
    m_map :=
      [("Bearer%20aa.bb.cc".toList, ⟨[(AOP_Read, "/store/a".toList)], 1500, "alice".toList⟩),
        ("Bearer%20dd.ee.ff".toList, ⟨[(AOP_Read, "/store/d".toList)], 1600, "alice".toList⟩)]
    m_next_clean := 1060 }

/-- The reader of `scenarioReader`'s file with `map_subject = true` added to its issuer
section. -/
def subjectReader : INIReader where
  ParseError := 0
  Sections := scenarioReader.Sections
  Get := scenarioReader.Get
  GetBoolean := fun _ name dflt => if name = "map_subject".toList then true else dflt

/-- The surroundings of a request against an issuer with `map_subject = true`: the token
library of the scenario, except that the subject claim of the token reads as `sub` (`none`:
it cannot be read). -/
def subjectHost (sub : Option Str) : Host Unit Unit where
  lib :=
    { scenarioLib 5000 [⟨"/data".toList, "read".toList⟩] with
      scitoken_get_claim_string := fun _ name =>
        if name = "iss".toList then some "https://demo.scitokens.org".toList
        else if name = "sub".toList then sub
        else none }
  clk := fun _ => 1000
  reader := subjectReader
  picojson_parse := fun _ => (JsonValue.other, [])
  after_erase := fun m => m
  try_raises := none

/-- The plugin object configured by `Reconfig` from `subjectReader`. -/
def subjectObject : XrdAccSciTokens :=
  (Reconfig (subjectHost none) (freshObject none 1060)).2

/-- The canonical form of a path: exactly `/`, or the concatenation of `/` + segment for one
or more segments that are not empty, hold no `/`, and are neither `.` nor `..`. -/
def canonical_form (path : Str) : Prop :=
  path = ['/'] ∨
  ∃ segs : List Str, segs ≠ [] ∧ (∀ s ∈ segs, valid_segment s) ∧
    path = segs.flatMap (fun s => '/' :: s)

/-- Every base path and every restricted path of the configuration is in canonical form. -/
def config_canonical (config : IssuerConfig) : Prop :=
  (∀ b ∈ config.m_base_paths, canonical_form b) ∧
  (∀ b ∈ config.m_restricted_paths, canonical_form b)

/-! # Theorems -/

/-! ## Rule matching -/

theorem compare_eq_iff (path str : Str) :
    compare_eq path str.length str = true ↔ str <+: path := by
  simp [compare_eq, List.prefix_iff_eq_take, eq_comm]

theorem apply_fold_eq_filter (P : XrdAccPrivTable) (rules : AccessRulesRaw) (path : Str)
    (init : Nat) :
    rules.foldl
      (fun privs rule =>
        if compare_eq path rule.2.length rule.2 then AddPriv P rule.1 privs else privs) init =
    (rules.filter (fun rule => decide (rule.2 <+: path))).foldl
      (fun privs rule => AddPriv P rule.1 privs) init := by
  induction rules generalizing init with
  | nil => rfl
  | cons r rs ih =>
    by_cases h : r.2 <+: path
    · have h1 : compare_eq path r.2.length r.2 = true := (compare_eq_iff path r.2).2 h
      simp [List.filter_cons, h, h1, ih]
    · have h1 : ¬ compare_eq path r.2.length r.2 = true :=
        fun hc => h ((compare_eq_iff path r.2).1 hc)
      simp [List.filter_cons, h, h1, ih]

/-- C1 (evaluation at the failing input): for the rules `[(Read,"/x"), (Stat,"/x")]` the
call `apply(Delete, "/x")` returns the Read and Lookup privileges (`0x28`), not "no
privilege", and so differs from the matching rule of the specification, which filters by
operation: `apply` never compares the operation it is given with the operation of a
rule. -/
theorem apply_delete_not_none :
    XrdAccRules.apply hostPrivs ⟨[(AOP_Read, "/x".toList), (AOP_Stat, "/x".toList)], 0, []⟩
        AOP_Delete "/x".toList = 0x28 ∧
    spec_match hostPrivs [(AOP_Read, "/x".toList), (AOP_Stat, "/x".toList)]
        AOP_Delete "/x".toList = hostPrivs.XrdAccPriv_None ∧
    XrdAccRules.apply hostPrivs ⟨[(AOP_Read, "/x".toList), (AOP_Stat, "/x".toList)], 0, []⟩
        AOP_Delete "/x".toList ≠
      spec_match hostPrivs [(AOP_Read, "/x".toList), (AOP_Stat, "/x".toList)]
        AOP_Delete "/x".toList := by
  decide

/-! ## Canonicalization as a fold over segments -/

theorem dropWhile_length_le {α : Type} (p : α → Bool) (l : List α) :
    (l.dropWhile p).length ≤ l.length := by
  induction l with
  | nil => simp
  | cons x xs ih =>
    rw [List.dropWhile_cons]
    split
    · simp; omega
    · simp

theorem scan_progress {α : Type} (p q : α → Bool) (hq : ∀ c, q c = !p c) (l : List α)
    (h : (l.dropWhile p).dropWhile q ≠ []) :
    ((l.dropWhile p).dropWhile q).length < l.length := by
  induction l with
  | nil => simp at h
  | cons x xs ih =>
    by_cases hp : p x = true
    · rw [List.dropWhile_cons_of_pos hp] at h ⊢
      have := ih h
      simp; omega
    · rw [List.dropWhile_cons_of_neg hp] at h ⊢
      have hqx : q x = true := by simp [hq, hp]
      rw [List.dropWhile_cons_of_pos hqx] at h ⊢
      have := dropWhile_length_le q xs
      simp; omega

theorem segments_ne_nil (r : Str) : segments r ≠ [] := by
  cases r with
  | nil => simp [segments]
  | cons c cs =>
    simp only [segments]
    split
    · simp
    · split <;> simp

theorem segments_of_no_slash (a : Str) (h : ∀ c ∈ a, c ≠ '/') : segments a = [a] := by
  induction a with
  | nil => rfl
  | cons c cs ih =>
    have hc : c ≠ '/' := h c (by simp)
    have := ih (fun d hd => h d (by simp [hd]))
    simp [segments, hc, this]

theorem segments_append_slash (a t : Str) (h : ∀ c ∈ a, c ≠ '/') :
    segments (a ++ '/' :: t) = a :: segments t := by
  induction a with
  | nil => simp [segments]
  | cons c cs ih =>
    have hc : c ≠ '/' := h c (by simp)
    have := ih (fun d hd => h d (by simp [hd]))
    simp [segments, hc, this]

theorem push_nil (cs : List Str) : MakeCanonical.push cs [] = cs := by
  simp [MakeCanonical.push]

theorem fold_segments_dropWhile (rest : Str) (cs : List Str) :
    (segments (rest.dropWhile (fun c => c == '/'))).foldl MakeCanonical.push cs =
      (segments rest).foldl MakeCanonical.push cs := by
  induction rest with
  | nil => rfl
  | cons c r ih =>
    by_cases hc : c = '/'
    · subst hc
      simp [segments, push_nil, ih]
    · simp [hc]

theorem MakeCanonical.loop_eq_fold (fuel : Nat) (rest : Str) (cs : List Str)
    (hf : rest.length < fuel) :
    MakeCanonical.loop fuel rest cs = some ((segments rest).foldl MakeCanonical.push cs) := by
  induction fuel generalizing rest cs with
  | zero => omega
  | succ n ih =>
    rw [← fold_segments_dropWhile]
    simp only [MakeCanonical.loop]
    have hsplit := List.takeWhile_append_dropWhile (fun c => c != '/')
      (rest.dropWhile (fun c => c == '/'))
    have hno : ∀ c ∈ (rest.dropWhile (fun c => c == '/')).takeWhile (fun c => c != '/'),
        c ≠ '/' := by
      intro c hc
      have := List.mem_takeWhile_imp hc
      simpa using this
    by_cases h2 : (rest.dropWhile (fun c => c == '/')).dropWhile (fun c => c != '/') = []
    · rw [if_pos h2]
      rw [h2, List.append_nil] at hsplit
      rw [hsplit] at hno
      rw [hsplit, segments_of_no_slash _ hno]
      rfl
    · rw [if_neg h2]
      have hlen := scan_progress (fun c => c == '/') (fun c => c != '/')
        (fun c => by simp [bne]) rest h2
      rw [ih _ _ (by omega)]
      obtain ⟨d, t, hdt⟩ := List.exists_cons_of_ne_nil h2
      have hd : d = '/' := by
        have := List.head_dropWhile_not (fun c => c != '/')
          (rest.dropWhile (fun c => c == '/')) h2
        simp only [hdt, List.head_cons] at this
        simpa using this
      subst hd
      conv_rhs => rw [← hsplit, hdt, segments_append_slash _ _ hno]
      rw [hdt]
      simp [segments, push_nil]

theorem MakeCanonical_eq (path : Str) (h : path.head? = some '/') :
    MakeCanonical path =
      some (MakeCanonical.render ((segments path).foldl MakeCanonical.push [])) := by
  have hne : path ≠ [] := by rintro rfl; simp at h
  simp [MakeCanonical, hne, h, MakeCanonical.loop_eq_fold]

/-! ## The end-to-end scenario and the cache time -/

/-- C2 (evaluation at the failing input): in the end-to-end scenario with a chained
authorizer that answers `0x40`, `Access` for `Update` on `/store/data/file.txt` returns the
locally computed mask `0x28` (Read and Lookup), not the chain's answer, and the chain is
never called. -/
theorem scenario_update_not_delegated :
    (Access hostPrivs (scenarioHost 1000 5000 [⟨"/data".toList, "read".toList⟩])
        (scenarioObject (some (fun _ _ _ _ => 0x40))) ⟨none⟩
        "/store/data/file.txt".toList AOP_Update
        (some (envWithAuthz "Bearer%20aa.bb.cc".toList))).privs = 0x28 ∧
    (Access hostPrivs (scenarioHost 1000 5000 [⟨"/data".toList, "read".toList⟩])
        (scenarioObject (some (fun _ _ _ _ => 0x40))) ⟨none⟩
        "/store/data/file.txt".toList AOP_Update
        (some (envWithAuthz "Bearer%20aa.bb.cc".toList))).privs ≠ 0x40 ∧
    (Access hostPrivs (scenarioHost 1000 5000 [⟨"/data".toList, "read".toList⟩])
        (scenarioObject (some (fun _ _ _ _ => 0x40))) ⟨none⟩
        "/store/data/file.txt".toList AOP_Update
        (some (envWithAuthz "Bearer%20aa.bb.cc".toList))).calls.any ExtCall.is_chain_call
      = false := by
  decide

/-- C4 (evaluation at the failing inputs): with the clock at 1000, a token that expires at
5000 gets the cache time 60 where `max(e - now, 60)` is 4000, and a token that expired at
100 gets the cache time 900 where `max(e - now, 60)` is 60; `GenerateAcls` returns these
values in `cache_expiry`. -/
theorem cache_ttl_operands_swapped :
    GenerateAcls.cache_ttl 1000 5000 = 60 ∧ max ((5000 : Int) - 1000) 60 = 4000 ∧
    GenerateAcls.cache_ttl 1000 100 = 900 ∧ max ((100 : Int) - 1000) 60 = 60 ∧
    ((GenerateAcls (scenarioHost 1000 5000 [⟨"/data".toList, "read".toList⟩])
        (scenarioObject none) "Bearer%20aa.bb.cc".toList).1.map
      GenerateAclsResult.cache_expiry) = some 60 ∧
    ((GenerateAcls (scenarioHost 1000 100 [⟨"/data".toList, "read".toList⟩])
        (scenarioObject none) "Bearer%20aa.bb.cc".toList).1.map
      GenerateAclsResult.cache_expiry) = some 900 := by
  decide

/-! ## The cache time floor -/

theorem toInt64_lt (n : Nat) : toInt64 n < 2 ^ 63 := by
  unfold toInt64 UINT64_MOD
  split
  · omega
  · have : n % 2 ^ 64 < 2 ^ 64 := Nat.mod_lt _ (by norm_num)
    omega

theorem cache_ttl_bounds (t : Nat) (expiry : Int) :
    60 ≤ GenerateAcls.cache_ttl t expiry ∧ GenerateAcls.cache_ttl t expiry < 2 ^ 63 := by
  unfold GenerateAcls.cache_ttl
  split
  · refine ⟨le_max_right _ _, max_lt (toInt64_lt _) (by norm_num)⟩
  · constructor <;> norm_num

theorem toUInt64_cache_ttl (t : Nat) (expiry : Int) :
    ((toUInt64 (GenerateAcls.cache_ttl t expiry) : Nat) : Int) = GenerateAcls.cache_ttl t expiry := by
  obtain ⟨h1, h2⟩ := cache_ttl_bounds t expiry
  unfold toUInt64 UINT64_MOD
  rw [Int.toNat_of_nonneg (Int.emod_nonneg _ (by norm_num))]
  apply Int.emod_eq_of_lt (by omega)
  norm_num
  omega

theorem le_toUInt64_cache_ttl (t : Nat) (expiry : Int) :
    60 ≤ toUInt64 (GenerateAcls.cache_ttl t expiry) := by
  have h1 := cache_ttl_bounds t expiry
  have h2 := toUInt64_cache_ttl t expiry
  omega

theorem verify_cache_expiry_ge {Token Enforcer : Type} (h : Host Token Enforcer)
    (self : XrdAccSciTokens) (authz : Str) (r : GenerateAclsResult)
    (hr : GenerateAcls.verify h self authz = some r) : 60 ≤ r.cache_expiry := by
  unfold GenerateAcls.verify at hr
  dsimp only at hr
  repeat' (split at hr)
  all_goals first
    | contradiction
    | (simp only [Option.some.injEq] at hr
       subst hr
       exact le_toUInt64_cache_ttl _ _)

theorem GenerateAcls_cache_expiry_ge {Token Enforcer : Type} (h : Host Token Enforcer)
    (self : XrdAccSciTokens) (authz : Str) (r : GenerateAclsResult)
    (hr : (GenerateAcls h self authz).1 = some r) : 60 ≤ r.cache_expiry := by
  unfold GenerateAcls at hr
  split at hr
  · exact verify_cache_expiry_ge h self authz r hr
  · cases hr

theorem map_find_map_assign {α : Type} (m : List (Str × α)) (key : Str) (value : α) :
    map_find (map_assign m key value) key = some value := by
  unfold map_find
  induction m with
  | nil => simp [map_assign]
  | cons e rest ih =>
    unfold map_assign
    split
    · simp
    · rename_i hne
      split
      · simp
      · rw [List.find?_cons_of_neg _ (by simpa using hne)]
        exact ih

theorem decide_with_self (P : XrdAccPrivTable) (self : XrdAccSciTokens) (Entity : XrdSecEntity)
    (path : Str) (oper : Access_Operation) (env : Option XrdOucEnv)
    (access_rules : XrdAccRules) (calls : List ExtCall) :
    (Access.decide_with P self Entity path oper env access_rules calls).self = self := by
  unfold Access.decide_with Access.delegate
  simp only
  split
  · split <;> rfl
  · rfl

/-- C5: cache TTL floor.  Whenever `Access` verifies a credential (no live cache entry, no
exception raised, and `GenerateAcls` succeeds with any result `r`, whatever the expiration
the token declares),
the rule set it stores under the credential has the expiry instant `now + r.cache_expiry`,
which absent `uint64_t` overflow is at least `now + 60`, so `expired()` is false at every
clock reading `t ≤ now + 60`; here `now` is the clock reading taken by `Access`. -/
theorem inserted_rules_live_for_60 {Token Enforcer : Type} (P : XrdAccPrivTable)
    (h : Host Token Enforcer) (self : XrdAccSciTokens) (Entity : XrdSecEntity) (path : Str)
    (oper : Access_Operation) (env : XrdOucEnv) (authz : Str) (r : GenerateAclsResult)
    (hauthz : env.Get "authz".toList = some authz)
    (hmiss : Access.cache_lookup h.clk
      (Check h self (monotonic_time h.clk ClockSite.access)) authz = none)
    (hraise : h.try_raises = none)
    (hgen : (GenerateAcls h (Check h self (monotonic_time h.clk ClockSite.access)) authz).1
      = some r)
    (hno : monotonic_time h.clk ClockSite.access + r.cache_expiry < UINT64_MOD) :
    ∃ rules : XrdAccRules,
      map_find (Access P h self Entity path oper (some env)).self.m_map authz = some rules ∧
      rules.m_expiry_time = monotonic_time h.clk ClockSite.access + r.cache_expiry ∧
      monotonic_time h.clk ClockSite.access + 60 ≤ rules.m_expiry_time ∧
      ∀ (clk : Clock) (site : ClockSite),
        monotonic_time clk site ≤ monotonic_time h.clk ClockSite.access + 60 →
          XrdAccRules.expired clk site rules = false := by
  have hge := GenerateAcls_cache_expiry_ge h _ authz r hgen
  rcases hg : GenerateAcls h (Check h self (monotonic_time h.clk ClockSite.access)) authz
    with ⟨res, calls⟩
  rw [hg] at hgen
  simp only at hgen
  subst hgen
  refine ⟨XrdAccRules.parse
    { m_rules := [],
      m_expiry_time := (monotonic_time h.clk ClockSite.access + r.cache_expiry) % UINT64_MOD,
      m_username := r.username } r.rules, ?_, ?_, ?_, ?_⟩
  · unfold Access
    simp only [hauthz, hmiss, Access.on_miss, hraise, hg, decide_with_self]
    exact map_find_map_assign _ _ _
  · simp only [XrdAccRules.parse]
    exact Nat.mod_eq_of_lt hno
  · simp only [XrdAccRules.parse]
    rw [Nat.mod_eq_of_lt hno]
    omega
  · intro clk site ht
    simp only [XrdAccRules.expired, XrdAccRules.parse, decide_eq_false_iff_not, not_lt, gt_iff_lt]
    rw [Nat.mod_eq_of_lt hno]
    omega

/-- C5 (witness): a token that expired in the past (expiration 100, clock at 1000) is
cached with expiry instant 1900. -/
theorem inserted_rules_live_for_60_witness :
    (envWithAuthz "Bearer%20aa.bb.cc".toList).Get "authz".toList
      = some "Bearer%20aa.bb.cc".toList ∧
    ∃ rules : XrdAccRules,
      map_find (Access hostPrivs (scenarioHost 1000 100 [⟨"/data".toList, "read".toList⟩])
        (scenarioObject none) ⟨none⟩ "/store/data/file.txt".toList AOP_Read
        (some (envWithAuthz "Bearer%20aa.bb.cc".toList))).self.m_map
        "Bearer%20aa.bb.cc".toList = some rules ∧
      rules.m_expiry_time =
        monotonic_time (scenarioHost 1000 100 [⟨"/data".toList, "read".toList⟩]).clk
          ClockSite.access + 900 ∧
      monotonic_time (scenarioHost 1000 100 [⟨"/data".toList, "read".toList⟩]).clk
          ClockSite.access + 60 ≤ rules.m_expiry_time ∧
      ∀ (clk : Clock) (site : ClockSite),
        monotonic_time clk site ≤
          monotonic_time (scenarioHost 1000 100 [⟨"/data".toList, "read".toList⟩]).clk
            ClockSite.access + 60 →
          XrdAccRules.expired clk site rules = false :=
  ⟨rfl,
    inserted_rules_live_for_60 hostPrivs
      (scenarioHost 1000 100 [⟨"/data".toList, "read".toList⟩]) (scenarioObject none) ⟨none⟩
      "/store/data/file.txt".toList AOP_Read (envWithAuthz "Bearer%20aa.bb.cc".toList)
      "Bearer%20aa.bb.cc".toList
      ⟨900, [(AOP_Read, "/store/data".toList), (AOP_Stat, "/store/data".toList)],
        "alice".toList⟩
      rfl rfl rfl rfl (by decide)⟩

/-! ## The structural check of the credential -/

theorem char_eq_iff_toNat (c d : Char) : c = d ↔ c.toNat = d.toNat := by
  constructor
  · rintro rfl; rfl
  · intro h
    apply Char.ext
    apply UInt32.ext  
    simpa [Char.toNat, UInt32.toNat] using h

theorem char_le_iff_toNat (c d : Char) : c ≤ d ↔ c.toNat ≤ d.toNat := by
  rfl

theorem bad_char_eq (c : Char) : GenerateAcls.bad_char c = !jwt_charset c := by
  unfold GenerateAcls.bad_char jwt_charset
  simp only [char_eq_iff_toNat, char_le_iff_toNat]
  have e1 : 'A'.toNat = 65 := rfl
  have e2 : 'Z'.toNat = 90 := rfl
  have e3 : 'a'.toNat = 97 := rfl
  have e4 : 'z'.toNat = 122 := rfl
  have e5 : '0'.toNat = 48 := rfl
  have e6 : '9'.toNat = 57 := rfl
  have e7 : '+'.toNat = 43 := rfl
  have e8 : '/'.toNat = 47 := rfl
  have e9 : '_'.toNat = 95 := rfl
  have e10 : '-'.toNat = 45 := rfl
  rw [e1, e2, e3, e4, e5, e6, e7, e8, e9, e10]
  generalize c.toNat = n
  simp only [ge_iff_le, Bool.not_or, Bool.not_and, ne_eq, decide_not, Bool.and_assoc]
  rw [Bool.and_comm (!decide (n = 45)) (!decide (n = 95))]

theorem scan_ok_iff (l : Str) (n : Nat) (hn : n ≤ 2) :
    ((GenerateAcls.scan l n).1 = 2 ∧ (GenerateAcls.scan l n).2 = true) ↔
      (n + l.count '.' = 2 ∧ ∀ c ∈ l, c ≠ '.' → jwt_charset c = true) := by
  induction l generalizing n with
  | nil => simp [GenerateAcls.scan]
  | cons c l ih =>
    by_cases hc : c = '.'
    · subst hc
      by_cases h2 : n + 1 > 2
      · simp only [GenerateAcls.scan, if_pos h2, if_true, List.count_cons_self]
        constructor
        · rintro ⟨h, _⟩; omega
        · rintro ⟨h, _⟩; omega
      · simp only [GenerateAcls.scan, if_neg h2, if_true, List.count_cons_self]
        rw [ih (n + 1) (by omega)]
        constructor
        · rintro ⟨h, hall⟩
          refine ⟨by omega, ?_⟩
          intro d hd hne
          rcases List.mem_cons.1 hd with rfl | hd
          · exact absurd rfl hne
          · exact hall d hd hne
        · rintro ⟨h, hall⟩
          exact ⟨by omega, fun d hd hne => hall d (List.mem_cons_of_mem _ hd) hne⟩
    · by_cases hb : GenerateAcls.bad_char c = true
      · simp only [GenerateAcls.scan, if_neg hc, if_pos hb]
        constructor
        · rintro ⟨_, h⟩; cases h
        · rintro ⟨_, hall⟩
          have := hall c (List.mem_cons_self _ _) hc
          rw [bad_char_eq, this] at hb
          cases hb
      · simp only [GenerateAcls.scan, if_neg hc, if_neg hb]
        rw [ih n hn, List.count_cons_of_ne (Ne.symm hc)]
        have hj : jwt_charset c = true := by
          rw [bad_char_eq] at hb
          simpa using hb
        constructor
        · rintro ⟨h, hall⟩
          refine ⟨h, ?_⟩
          intro d hd hne
          rcases List.mem_cons.1 hd with rfl | hd
          · exact hj
          · exact hall d hd hne
        · rintro ⟨h, hall⟩
          exact ⟨h, fun d hd hne => hall d (List.mem_cons_of_mem _ hd) hne⟩

/-- C6 (as stated, refuted): the credential `Bearer%20aa.bb.c=` has exactly two `.` after
the bearer text and all its other characters in `[A-Za-z0-9+/=_-]`, yet the structural check
fails and `GenerateAcls` returns `false` without calling the verifier. -/
theorem structural_check_rejects_equals_sign :
    ("aa.bb.c=".toList.count '.' = 2 ∧
      ∀ c ∈ "aa.bb.c=".toList, c ≠ '.' → spec_charset c = true) ∧
    GenerateAcls.looks_like_jwt "Bearer%20aa.bb.c=".toList = false ∧
    (GenerateAcls (scenarioHost 1000 5000 []) (scenarioObject none)
      "Bearer%20aa.bb.c=".toList).2 = [] := by
  refine ⟨⟨by decide, by decide⟩, by decide, rfl⟩

/-- C6 (amended): for every credential, `GenerateAcls` passes the structural check and
calls the external verifier (once, on the text after the bearer text) if and only if the
credential starts with `Bearer%20`, the text after it contains exactly two `.` characters
and every other character of it is in `[A-Za-z0-9+/_-]` (`=` is not accepted); every other
credential returns `false` with no call of the verifier. -/
theorem structural_check_iff {Token Enforcer : Type} (h : Host Token Enforcer)
    (self : XrdAccSciTokens) (authz : Str) :
    (GenerateAcls.looks_like_jwt authz = true ↔
      (authz.take 9 = "Bearer%20".toList ∧ (authz.drop 9).count '.' = 2 ∧
        ∀ c ∈ authz.drop 9, c ≠ '.' → jwt_charset c = true)) ∧
    (GenerateAcls.looks_like_jwt authz = true →
      (GenerateAcls h self authz).2 =
        [ExtCall.scitoken_deserialize (authz.drop 9) self.m_valid_issuers_array]) ∧
    (GenerateAcls.looks_like_jwt authz = false → GenerateAcls h self authz = (none, [])) := by
  refine ⟨?_, ?_, ?_⟩
  · unfold GenerateAcls.looks_like_jwt
    have hscan := scan_ok_iff (authz.drop 9) 0 (by omega)
    by_cases hp : authz.take 9 = "Bearer%20".toList
    · have hs : strncmp_eq authz "Bearer%20".toList 9 = true := by
        simp only [strncmp_eq, decide_eq_true_eq]
        rw [hp]; rfl
      simp only [hs, Bool.not_true, Bool.false_eq_true, if_false, hp, true_and]
      rw [← Nat.zero_add (List.count '.' (List.drop 9 authz)), ← hscan]
      simp
    · have hs : strncmp_eq authz "Bearer%20".toList 9 = false := by
        simp only [strncmp_eq, decide_eq_false_iff_not]
        intro hh; apply hp; rw [hh]; rfl
      simp only [hs, Bool.not_false, if_true]
      constructor
      · intro hf; cases hf
      · rintro ⟨hh, _⟩; exact absurd hh hp
  · intro hl
    simp [GenerateAcls, hl]
  · intro hl
    simp [GenerateAcls, hl]

/-! ## Entitlements to rules -/

theorem strncmp_eq_iff (s str : Str) : strncmp_eq s str str.length = true ↔ str <+: s := by
  simp [strncmp_eq, List.prefix_iff_eq_take, eq_comm]

theorem found_path_iff (acl_path : Str) (rps : List Str) :
    GenerateAcls.found_path acl_path rps = true ↔ ∃ rp ∈ rps, rp <+: acl_path := by
  induction rps with
  | nil => simp [GenerateAcls.found_path]
  | cons rp more ih =>
    by_cases h : strncmp_eq acl_path rp rp.length = true
    · simp only [GenerateAcls.found_path, if_pos h, true_iff]
      exact ⟨rp, List.mem_cons_self _ _, (strncmp_eq_iff _ _).1 h⟩
    · simp only [GenerateAcls.found_path, if_neg h, ih, List.mem_cons, exists_eq_or_imp]
      constructor
      · intro hx; exact Or.inr hx
      · rintro (hx | hx)
        · exact absurd ((strncmp_eq_iff _ _).2 hx) h
        · exact hx

theorem foldl_append_flatMap {α β : Type} (f : List β → α → List β) (g : α → List β)
    (hf : ∀ acc x, f acc x = acc ++ g x) (l : List α) (acc : List β) :
    l.foldl f acc = acc ++ l.flatMap g := by
  induction l generalizing acc with
  | nil => simp
  | cons x xs ih => simp [List.foldl_cons, ih, hf, List.append_assoc]

theorem base_path_body_append (acl_path acl_authz : Str) (acc : AccessRulesRaw) (b : Str) :
    GenerateAcls.base_path_body acl_path acl_authz acc b =
      acc ++ GenerateAcls.base_path_body acl_path acl_authz [] b := by
  unfold GenerateAcls.base_path_body
  split
  · simp
  · simp only
    split
    · simp
    · split <;> simp

theorem acl_body_append (config : IssuerConfig) (acc : AccessRulesRaw) (acl : Acl) :
    GenerateAcls.acl_body config acc acl = acc ++ GenerateAcls.acl_body config [] acl := by
  unfold GenerateAcls.acl_body
  split
  · simp
  · rw [foldl_append_flatMap _ _ (base_path_body_append acl.resource acl.authz),
      foldl_append_flatMap _ _ (base_path_body_append acl.resource acl.authz)]
    simp

theorem xrd_rules_eq_flatMap (config : IssuerConfig) (acls : List Acl) :
    GenerateAcls.xrd_rules config acls = acls.flatMap (GenerateAcls.acl_body config []) := by
  unfold GenerateAcls.xrd_rules
  rw [foldl_append_flatMap _ _ (acl_body_append config)]
  simp

theorem xrd_rules_append (config : IssuerConfig) (l1 l2 : List Acl) :
    GenerateAcls.xrd_rules config (l1 ++ l2) =
      GenerateAcls.xrd_rules config l1 ++ GenerateAcls.xrd_rules config l2 := by
  simp [xrd_rules_eq_flatMap]

theorem MakeCanonical_isSome_of_head (b r : Str) (hb : b.head? = some '/') :
    ∃ p, MakeCanonical (b ++ r) = some p := by
  have : (b ++ r).head? = some '/' := by
    cases b with
    | nil => simp at hb
    | cons c cs => simpa using hb
  exact ⟨_, MakeCanonical_eq _ this⟩

theorem flatMap_congr_mem {α β : Type} (f g : α → List β) (l : List α)
    (hfg : ∀ x ∈ l, f x = g x) : l.flatMap f = l.flatMap g := by
  induction l with
  | nil => rfl
  | cons x xs ih =>
    rw [List.flatMap_cons, List.flatMap_cons, hfg x (List.mem_cons_self _ _),
      ih (fun y hy => hfg y (List.mem_cons_of_mem _ hy))]

theorem base_path_body_eq_spec (acl_path acl_authz b : Str) (hr : acl_path.head? = some '/')
    (hb : b.head? = some '/') :
    GenerateAcls.base_path_body acl_path acl_authz [] b =
      spec_base_path_rules acl_path acl_authz b := by
  obtain ⟨p, hp⟩ := MakeCanonical_isSome_of_head b acl_path hb
  unfold GenerateAcls.base_path_body spec_base_path_rules
  rw [hp]
  simp [hr]

theorem acl_body_eq_spec (config : IssuerConfig) (acl : Acl)
    (hb : ∀ b ∈ config.m_base_paths, b.head? = some '/') :
    GenerateAcls.acl_body config [] acl = spec_entitlement_rules config acl := by
  unfold GenerateAcls.acl_body spec_entitlement_rules
  have hfound : GenerateAcls.found_path acl.resource config.m_restricted_paths = false ↔
      ¬ ∃ rp ∈ config.m_restricted_paths, rp <+: acl.resource := by
    rw [← found_path_iff]; simp
  by_cases h1 : config.m_restricted_paths ≠ [] ∧
      GenerateAcls.found_path acl.resource config.m_restricted_paths = false
  · rw [if_pos h1, if_pos ⟨h1.1, hfound.1 h1.2⟩]
  · rw [if_neg h1, if_neg (fun hh => h1 ⟨hh.1, hfound.2 hh.2⟩)]
    rw [foldl_append_flatMap _ _ (base_path_body_append acl.resource acl.authz)]
    by_cases hr : acl.resource.head? = some '/'
    · rw [if_neg (by simpa using hr), List.nil_append]
      exact flatMap_congr_mem _ _ _ (fun b hbm => base_path_body_eq_spec _ _ _ hr (hb b hbm))
    · rw [if_pos hr, List.nil_append, List.flatMap_eq_nil_iff]
      intro b _
      simp [GenerateAcls.base_path_body, hr]

theorem base_path_body_length (acl_path acl_authz b : Str) :
    (GenerateAcls.base_path_body acl_path acl_authz [] b).length =
      if acl_path.head? = some '/' ∧ (acl_authz = "read".toList ∨ acl_authz = "write".toList)
      then 2 else 0 := by
  unfold GenerateAcls.base_path_body
  split_ifs <;> simp_all

theorem flatMap_length_const {α β : Type} (f : α → List β) (n : Nat) (l : List α)
    (hf : ∀ x ∈ l, (f x).length = n) : (l.flatMap f).length = n * l.length := by
  induction l with
  | nil => simp
  | cons x xs ih =>
    rw [List.flatMap_cons, List.length_append, hf x (List.mem_cons_self _ _),
      ih (fun y hy => hf y (List.mem_cons_of_mem _ hy)), List.length_cons]
    ring

theorem acl_body_length (config : IssuerConfig) (acl : Acl) :
    (GenerateAcls.acl_body config [] acl).length = 0 ∨
      (GenerateAcls.acl_body config [] acl).length = 2 * config.m_base_paths.length := by
  unfold GenerateAcls.acl_body
  split
  · left; rfl
  · rw [foldl_append_flatMap _ _ (base_path_body_append acl.resource acl.authz), List.nil_append]
    by_cases hc : acl.resource.head? = some '/' ∧
        (acl.authz = "read".toList ∨ acl.authz = "write".toList)
    · right
      apply flatMap_length_const
      intro b _
      rw [base_path_body_length, if_pos hc]
    · left
      have := flatMap_length_const (GenerateAcls.base_path_body acl.resource acl.authz []) 0
        config.m_base_paths (fun b _ => by rw [base_path_body_length, if_neg hc])
      simpa using this

/-- C7: for a configuration whose base paths are absolute (start with `/`, as every base
path stored by `ParseCanonicalPaths` does), the rule list built by `GenerateAcls` equals the
reference expansion of the specification: entitlements in the order returned, an
entitlement skipped when it fails the restricted-path filter or its resource path does not
start with `/`, and for each base path in configured order `(Read, p), (Stat, p)` for
`read`, `(Update, p), (Create, p)` for `write`, nothing for another action, with
`p = MakeCanonical(base_path + resource_path)`; and one entitlement yields 0 or
`2 * |base_paths|` rules. -/
theorem xrd_rules_eq_reference_expansion (config : IssuerConfig) (acls : List Acl)
    (hb : ∀ b ∈ config.m_base_paths, b.head? = some '/') :
    GenerateAcls.xrd_rules config acls = spec_rules config acls ∧
    ∀ acl : Acl,
      (GenerateAcls.xrd_rules config [acl]).length = 0 ∨
      (GenerateAcls.xrd_rules config [acl]).length = 2 * config.m_base_paths.length := by
  constructor
  · rw [xrd_rules_eq_flatMap]
    unfold spec_rules
    induction acls with
    | nil => rfl
    | cons a as ih => rw [List.flatMap_cons, List.flatMap_cons, ih, acl_body_eq_spec config a hb]
  · intro acl
    rw [xrd_rules_eq_flatMap, List.flatMap_singleton]
    exact acl_body_length config acl

/-- C7 (witness): the configuration with base paths `/store`, `/cache` and the entitlements
`("/proj/a/../b", "read")`, `("/proj/c", "write")`, `("/other", "read")`,
`("/proj/d", "list")`. -/
theorem xrd_rules_eq_reference_expansion_witness :
    (∀ b ∈ restrictedConfig.m_base_paths, b.head? = some '/') ∧
    (GenerateAcls.xrd_rules restrictedConfig
        [⟨"/proj/a/../b".toList, "read".toList⟩, ⟨"/proj/c".toList, "write".toList⟩,
          ⟨"/other".toList, "read".toList⟩, ⟨"/proj/d".toList, "list".toList⟩] =
      spec_rules restrictedConfig
        [⟨"/proj/a/../b".toList, "read".toList⟩, ⟨"/proj/c".toList, "write".toList⟩,
          ⟨"/other".toList, "read".toList⟩, ⟨"/proj/d".toList, "list".toList⟩] ∧
      ∀ acl : Acl,
        (GenerateAcls.xrd_rules restrictedConfig [acl]).length = 0 ∨
        (GenerateAcls.xrd_rules restrictedConfig [acl]).length =
          2 * restrictedConfig.m_base_paths.length) :=
  ⟨by decide, xrd_rules_eq_reference_expansion restrictedConfig _ (by decide)⟩

theorem acl_body_filtered (config : IssuerConfig) (acl : Acl)
    (hne : config.m_restricted_paths ≠ [])
    (hno : ∀ rp ∈ config.m_restricted_paths, ¬ rp <+: acl.resource) :
    GenerateAcls.acl_body config [] acl = [] := by
  unfold GenerateAcls.acl_body
  have hf : GenerateAcls.found_path acl.resource config.m_restricted_paths = false := by
    cases hfp : GenerateAcls.found_path acl.resource config.m_restricted_paths with
    | false => rfl
    | true =>
      obtain ⟨rp, hrp, hpre⟩ := (found_path_iff _ _).1 hfp
      exact absurd hpre (hno rp hrp)
  rw [if_pos ⟨hne, hf⟩]

theorem base_path_body_eq_action_rules (acl_path acl_authz b : Str)
    (hr : acl_path.head? = some '/') :
    GenerateAcls.base_path_body acl_path acl_authz [] b =
      action_rules acl_authz ((MakeCanonical (b ++ acl_path)).getD []) := by
  unfold GenerateAcls.base_path_body action_rules
  rw [if_neg (by simpa using hr)]
  simp only [List.nil_append]

theorem acl_body_passed (config : IssuerConfig) (acl : Acl)
    (hpass : (config.m_restricted_paths = [] ∧ acl.resource.head? = some '/') ∨
      ∃ rp ∈ config.m_restricted_paths, rp.head? = some '/' ∧ rp <+: acl.resource) :
    GenerateAcls.acl_body config [] acl =
      config.m_base_paths.flatMap
        (fun b => action_rules acl.authz ((MakeCanonical (b ++ acl.resource)).getD [])) := by
  have hhead : acl.resource.head? = some '/' := by
    rcases hpass with ⟨_, h⟩ | ⟨rp, _, hrp, ⟨t, ht⟩⟩
    · exact h
    · rw [← ht]
      cases rp with
      | nil => simp at hrp
      | cons c cs => simpa using hrp
  have hcond : ¬ (config.m_restricted_paths ≠ [] ∧
      GenerateAcls.found_path acl.resource config.m_restricted_paths = false) := by
    rintro ⟨hne, hf⟩
    rcases hpass with ⟨h, _⟩ | ⟨rp, hrp, _, hpre⟩
    · exact hne h
    · have := (found_path_iff acl.resource config.m_restricted_paths).2 ⟨rp, hrp, hpre⟩
      rw [hf] at this
      cases this
  unfold GenerateAcls.acl_body
  rw [if_neg hcond, foldl_append_flatMap _ _ (base_path_body_append acl.resource acl.authz),
    List.nil_append]
  exact flatMap_congr_mem _ _ _ (fun b _ => base_path_body_eq_action_rules _ _ b hhead)

/-! ## Reconfig -/

/-- C9 (what the code does): after every successful `Reconfig` the list `m_valid_issuers`
and the array handed to `scitoken_deserialize` are empty, although the issuer map is
not. -/
theorem reconfig_leaves_valid_issuers_empty {Token Enforcer : Type} (h : Host Token Enforcer)
    (self : XrdAccSciTokens) (hok : (Reconfig h self).1 = true) :
    (Reconfig h self).2.m_valid_issuers = [] ∧
    (Reconfig h self).2.m_valid_issuers_array = [] ∧
    (Reconfig h self).2.m_issuers ≠ [] := by
  unfold Reconfig at hok ⊢
  split
  · rename_i hc; rw [if_pos hc] at hok; cases hok
  · rename_i hc
    rw [if_neg hc] at hok
    split
    · rename_i hc2; rw [if_pos hc2] at hok; cases hok
    · rename_i hc2
      rw [if_neg hc2] at hok
      split
      · rename_i heq; rw [heq] at hok; cases hok
      · rename_i audiences issuers heq
        rw [heq] at hok
        simp only at hok ⊢
        split
        · rename_i he; rw [if_pos he] at hok; cases hok
        · rename_i he
          refine ⟨rfl, rfl, ?_⟩
          intro hnil
          apply he
          simp only [Reconfig.install] at hnil
          rw [hnil]; rfl

/-- C9 (evaluation at the failing input): the reload from the file with the single issuer
`https://demo.scitokens.org` succeeds, the issuer map has that key, and the trusted-issuer
list and array are empty. -/
theorem reconfig_leaves_valid_issuers_empty_witness :
    (Reconfig (scenarioHost 1000 5000 []) (freshObject none 1060)).1 = true ∧
    (Reconfig (scenarioHost 1000 5000 []) (freshObject none 1060)).2.m_issuers.map Prod.fst =
      ["https://demo.scitokens.org".toList] ∧
    ((Reconfig (scenarioHost 1000 5000 []) (freshObject none 1060)).2.m_valid_issuers = [] ∧
      (Reconfig (scenarioHost 1000 5000 []) (freshObject none 1060)).2.m_valid_issuers_array
        = [] ∧
      (Reconfig (scenarioHost 1000 5000 []) (freshObject none 1060)).2.m_issuers ≠ []) :=
  ⟨by decide, by decide,
    reconfig_leaves_valid_issuers_empty (scenarioHost 1000 5000 []) (freshObject none 1060)
      (by decide)⟩

theorem ParseCanonicalPaths.loop_isSome (fuel : Nat) (rest : Str) (results : List Str)
    (hf : rest.length < fuel) : ∃ r, ParseCanonicalPaths.loop fuel rest results = some r := by
  induction fuel generalizing rest results with
  | zero => omega
  | succ n ih =>
    simp only [ParseCanonicalPaths.loop]
    split
    · exact ⟨_, rfl⟩
    · rename_i h2
      have hlen := scan_progress (fun c => c == ',' || c == ' ')
        (fun c => !(c == ',' || c == ' ')) (fun c => rfl) rest h2
      exact ih _ _ (by omega)

theorem ParseCanonicalPaths_isSome (path : Str) (results : List Str) :
    ∃ r, ParseCanonicalPaths path results = some r :=
  ParseCanonicalPaths.loop_isSome _ _ _ (Nat.lt_succ_self _)

/-- The property of a stored issuer entry that the load establishes. -/
theorem issuer_section_inv (reader : INIReader) (section_name : Str)
    (issuers : List (Str × IssuerConfig)) (Q : Str × IssuerConfig → Prop)
    (hQ : ∀ e ∈ issuers, Q e)
    (hnew : ∀ e : Str × IssuerConfig,
      reader.Get section_name "base_path".toList [] ≠ [] →
      ParseCanonicalPaths (reader.Get section_name "base_path".toList []) [] =
        some e.2.m_base_paths → Q e) :
    ∀ e ∈ Reconfig.issuer_section reader section_name issuers, Q e := by
  unfold Reconfig.issuer_section
  split
  · exact hQ
  · simp only
    split
    · exact hQ
    · split
      · exact hQ
      · rename_i hbp
        split
        · exact hQ
        · unfold map_emplace
          split
          · exact hQ
          · intro e he
            rcases List.mem_append.1 he with he | he
            · exact hQ e he
            · rw [List.mem_singleton] at he
              subst he
              apply hnew _ hbp
              obtain ⟨r, hr⟩ := ParseCanonicalPaths_isSome
                (reader.Get section_name "base_path".toList []) []
              rw [hr]; rfl

theorem sections_inv (reader : INIReader) (pj : Str → JsonValue × Str)
    (Q : Str × IssuerConfig → Prop) (secs : List Str)
    (hnew : ∀ s ∈ secs, ∀ e : Str × IssuerConfig,
      reader.Get s "base_path".toList [] ≠ [] →
      ParseCanonicalPaths (reader.Get s "base_path".toList []) [] = some e.2.m_base_paths →
      Q e)
    (audiences : List Str) (issuers : List (Str × IssuerConfig))
    (hQ : ∀ e ∈ issuers, Q e) (res : List Str × List (Str × IssuerConfig))
    (hres : Reconfig.sections reader pj secs audiences issuers = some res) :
    ∀ e ∈ res.2, Q e := by
  induction secs generalizing audiences issuers with
  | nil =>
    simp only [Reconfig.sections, Option.some.injEq] at hres
    subst hres
    exact hQ
  | cons s more ih =>
    simp only [Reconfig.sections] at hres
    split at hres
    · cases hres
    · exact ih (fun s1 hs1 => hnew s1 (List.mem_cons_of_mem _ hs1)) _ _
        (issuer_section_inv reader s issuers Q hQ (hnew s (List.mem_cons_self _ _))) hres

/-- C10 (as stated, refuted): a load from a file whose only issuer section has
`base_path = store` succeeds and stores the issuer with an empty `base_paths` list. -/
theorem relative_base_path_is_stored :
    "store".toList ≠ [] ∧
    ParseCanonicalPaths "store".toList [] = some [] ∧
    (Reconfig relativeBaseHost (freshObject none 1060)).1 = true ∧
    (Reconfig relativeBaseHost (freshObject none 1060)).2.m_issuers.map
        (fun e => (e.1, e.2.m_base_paths)) =
      [("https://demo.scitokens.org".toList, [])] := by
  decide

/-- C10 (amended): every `IssuerConfig` stored in the issuer map by a successful load comes
from a section whose `base_path` value is a non-empty string, and its `base_paths` list is
what `ParseCanonicalPaths` makes of that value (a list that can be empty); a section whose
`base_path` value is empty or not set is skipped, which leaves the issuer map as it is and
does not fail the load. -/
theorem stored_issuer_has_base_path_value {Token Enforcer : Type} (h : Host Token Enforcer)
    (self : XrdAccSciTokens) (hok : (Reconfig h self).1 = true) :
    (∀ e ∈ (Reconfig h self).2.m_issuers,
      ∃ s ∈ h.reader.Sections,
        h.reader.Get s "base_path".toList [] ≠ [] ∧
        ParseCanonicalPaths (h.reader.Get s "base_path".toList []) [] =
          some e.2.m_base_paths) ∧
    (∀ (s : Str) (issuers : List (Str × IssuerConfig)),
      h.reader.Get s "base_path".toList [] = [] →
        Reconfig.issuer_section h.reader s issuers = issuers) := by
  constructor
  · unfold Reconfig at hok ⊢
    split
    · rename_i hc; rw [if_pos hc] at hok; cases hok
    · rename_i hc
      rw [if_neg hc] at hok
      split
      · rename_i hc2; rw [if_pos hc2] at hok; cases hok
      · rename_i hc2
        rw [if_neg hc2] at hok
        split
        · rename_i heq; rw [heq] at hok; cases hok
        · rename_i audiences issuers heq
          rw [heq] at hok
          simp only at hok ⊢
          split
          · rename_i he; rw [if_pos he] at hok; cases hok
          · simp only [Reconfig.install]
            exact sections_inv h.reader h.picojson_parse
              (fun e => ∃ s ∈ h.reader.Sections,
                h.reader.Get s "base_path".toList [] ≠ [] ∧
                ParseCanonicalPaths (h.reader.Get s "base_path".toList []) [] =
                  some e.2.m_base_paths)
              h.reader.Sections (fun s hs e h1 h2 => ⟨s, hs, h1, h2⟩) [] []
              (fun e he => by cases he) (audiences, issuers) heq
  · intro s issuers hs
    unfold Reconfig.issuer_section
    split
    · rfl
    · simp only
      split
      · rfl
      · rfl

/-- C10 (witness): the load of the end-to-end scenario. -/
theorem stored_issuer_has_base_path_value_witness :
    (Reconfig (scenarioHost 1000 5000 []) (freshObject none 1060)).1 = true ∧
    ((∀ e ∈ (Reconfig (scenarioHost 1000 5000 []) (freshObject none 1060)).2.m_issuers,
      ∃ s ∈ (scenarioHost 1000 5000 []).reader.Sections,
        (scenarioHost 1000 5000 []).reader.Get s "base_path".toList [] ≠ [] ∧
        ParseCanonicalPaths ((scenarioHost 1000 5000 []).reader.Get s "base_path".toList [])
          [] = some e.2.m_base_paths) ∧
    (∀ (s : Str) (issuers : List (Str × IssuerConfig)),
      (scenarioHost 1000 5000 []).reader.Get s "base_path".toList [] = [] →
        Reconfig.issuer_section (scenarioHost 1000 5000 []).reader s issuers = issuers)) :=
  ⟨by decide,
    stored_issuer_has_base_path_value (scenarioHost 1000 5000 []) (freshObject none 1060)
      (by decide)⟩

/-! ## Base-path anchoring -/

theorem push_of_valid (cs : List Str) (s : Str) (hs : valid_segment s) :
    MakeCanonical.push cs s = cs ++ [s] := by
  obtain ⟨h1, h2, h3, _⟩ := hs
  unfold MakeCanonical.push
  rw [if_neg (by rintro (h | h) <;> contradiction), if_neg h3]

theorem foldl_push_valid (segs : List Str) (cs : List Str)
    (hs : ∀ s ∈ segs, valid_segment s) :
    segs.foldl MakeCanonical.push cs = cs ++ segs := by
  induction segs generalizing cs with
  | nil => simp
  | cons s more ih =>
    rw [List.foldl_cons, push_of_valid cs s (hs s (List.mem_cons_self _ _)),
      ih _ (fun x hx => hs x (List.mem_cons_of_mem _ hx))]
    simp

theorem segments_no_slash (r : Str) : ∀ s ∈ segments r, ∀ c ∈ s, c ≠ '/' := by
  induction r with
  | nil => simp [segments]
  | cons d ds ih =>
    by_cases hd : d = '/'
    · subst hd
      intro s hs
      simp only [segments, if_true, List.mem_cons] at hs
      rcases hs with rfl | hs
      · simp
      · exact ih s hs
    · intro s hs
      simp only [segments, if_neg hd] at hs
      split at hs
      · rename_i s0 ss heq
        rcases List.mem_cons.1 hs with rfl | hs
        · intro c hc
          rcases List.mem_cons.1 hc with rfl | hc
          · exact hd
          · exact ih s0 (by rw [heq]; exact List.mem_cons_self _ _) c hc
        · exact ih s (by rw [heq]; exact List.mem_cons_of_mem _ hs)
      · rw [List.mem_singleton] at hs
        subst hs
        intro c hc
        rw [List.mem_singleton] at hc
        subst hc
        exact hd

theorem push_preserves_valid (cs : List Str) (seg : Str)
    (hcs : ∀ c ∈ cs, valid_segment c) (hseg : ∀ c ∈ seg, c ≠ '/') :
    ∀ c ∈ MakeCanonical.push cs seg, valid_segment c := by
  unfold MakeCanonical.push
  split
  · exact hcs
  · rename_i h1
    split
    · split
      · intro c hc
        exact hcs c (List.dropLast_subset _ hc)
      · exact hcs
    · rename_i h2
      intro c hc
      rcases List.mem_append.1 hc with hc | hc
      · exact hcs c hc
      · rw [List.mem_singleton] at hc
        subst hc
        exact ⟨fun h => h1 (Or.inl h), fun h => h1 (Or.inr h), h2, hseg⟩

theorem foldl_push_preserves_valid (segs : List Str) (cs : List Str)
    (hcs : ∀ c ∈ cs, valid_segment c) (hsegs : ∀ s ∈ segs, ∀ c ∈ s, c ≠ '/') :
    ∀ c ∈ segs.foldl MakeCanonical.push cs, valid_segment c := by
  induction segs generalizing cs with
  | nil => exact hcs
  | cons s more ih =>
    rw [List.foldl_cons]
    exact ih _ (push_preserves_valid cs s hcs (hsegs s (List.mem_cons_self _ _)))
      (fun x hx => hsegs x (List.mem_cons_of_mem _ hx))

theorem MakeCanonical_head (raw b : Str) (h : MakeCanonical raw = some b) :
    raw.head? = some '/' := by
  unfold MakeCanonical at h
  split at h
  · cases h
  · rename_i hc
    by_contra hne
    exact hc (Or.inr hne)

theorem MakeCanonical_result_form (raw b : Str) (h : MakeCanonical raw = some b) :
    ∃ cs : List Str, (∀ c ∈ cs, valid_segment c) ∧ b = MakeCanonical.render cs := by
  have hh := MakeCanonical_head raw b h
  rw [MakeCanonical_eq raw hh, Option.some.injEq] at h
  exact ⟨_, foldl_push_preserves_valid _ _ (fun c hc => by cases hc) (segments_no_slash raw),
    h.symm⟩

theorem segments_slash_cons (t : Str) : segments ('/' :: t) = [] :: segments t := by
  simp [segments]

theorem segments_flatMap_append (cs : List Str) (t : Str)
    (hcs : ∀ c ∈ cs, valid_segment c) :
    segments (cs.flatMap (fun comp => '/' :: comp) ++ '/' :: t) = [] :: (cs ++ segments t) := by
  induction cs with
  | nil => simp [segments]
  | cons c more ih =>
    have hc := hcs c (List.mem_cons_self _ _)
    have ih1 := ih (fun x hx => hcs x (List.mem_cons_of_mem _ hx))
    simp only [List.flatMap_cons, List.cons_append, List.append_assoc]
    rw [segments_slash_cons]
    -- the remainder starts with `/`
    obtain ⟨u, hu⟩ : ∃ u, more.flatMap (fun comp => '/' :: comp) ++ '/' :: t = '/' :: u := by
      cases more with
      | nil => exact ⟨t, rfl⟩
      | cons m ms => exact ⟨_, by rw [List.flatMap_cons]; rfl⟩
    rw [hu, segments_slash_cons] at ih1
    rw [hu, segments_append_slash c u hc.2.2.2]
    have : segments u = more ++ segments t := by
      injection ih1
    rw [this]

theorem fold_segments_base_append (cs : List Str) (t : Str)
    (hcs : ∀ c ∈ cs, valid_segment c) :
    (segments (MakeCanonical.render cs ++ '/' :: t)).foldl MakeCanonical.push [] =
      (segments ('/' :: t)).foldl MakeCanonical.push cs := by
  unfold MakeCanonical.render
  by_cases hnil : cs = []
  · subst hnil
    simp [segments, push_nil]
  · rw [if_neg hnil, segments_flatMap_append cs t hcs, segments_slash_cons, List.foldl_cons,
      push_nil, List.foldl_cons, push_nil, List.foldl_append, foldl_push_valid cs [] hcs,
      List.nil_append]

theorem foldl_push_climb_free (segs : List Str) (before s : List Str)
    (h : climb_free segs s.length = true) :
    segs.foldl MakeCanonical.push (before ++ s) =
      before ++ segs.foldl MakeCanonical.push s := by
  induction segs generalizing s with
  | nil => rfl
  | cons seg more ih =>
    rw [List.foldl_cons, List.foldl_cons]
    unfold climb_free at h
    unfold MakeCanonical.push
    by_cases h1 : seg = [] ∨ seg = ['.']
    · rw [if_pos h1] at h
      rw [if_pos h1, if_pos h1]
      exact ih s h
    · rw [if_neg h1] at h
      rw [if_neg h1, if_neg h1]
      by_cases h2 : seg = ['.', '.']
      · rw [if_pos h2] at h
        rw [if_pos h2, if_pos h2]
        by_cases h0 : s.length = 0
        · rw [if_pos h0] at h; cases h
        · rw [if_neg h0] at h
          have hs : s ≠ [] := fun hh => h0 (by rw [hh]; rfl)
          rw [if_pos hs, if_pos (by simp [hs]), List.dropLast_append_of_ne_nil _ hs]
          apply ih
          rw [List.length_dropLast]
          exact h
      · rw [if_neg h2] at h
        rw [if_neg h2, if_neg h2, List.append_assoc]
        apply ih
        rw [List.length_append]
        exact h

theorem render_prefix (cs ds : List Str) :
    MakeCanonical.render cs <+: MakeCanonical.render (cs ++ ds) := by
  unfold MakeCanonical.render
  by_cases hnil : cs = []
  · subst hnil
    rw [if_pos rfl, List.nil_append]
    split
    · exact List.prefix_refl _
    · rename_i hd
      obtain ⟨d, more, rfl⟩ := List.exists_cons_of_ne_nil hd
      rw [List.flatMap_cons]
      exact ⟨d ++ more.flatMap (fun comp => '/' :: comp), rfl⟩
  · rw [if_neg hnil, if_neg (by simp [hnil]), List.flatMap_append]
    exact List.prefix_append _ _

theorem climb_free_of_no_dotdot (segs : List Str) (depth : Nat)
    (h : ['.', '.'] ∉ segs) : climb_free segs depth = true := by
  induction segs generalizing depth with
  | nil => rfl
  | cons seg more ih =>
    have hseg : seg ≠ ['.', '.'] := fun hh => h (by rw [hh]; exact List.mem_cons_self _ _)
    have hmore : ['.', '.'] ∉ more := fun hh => h (List.mem_cons_of_mem _ hh)
    unfold climb_free
    split
    · exact ih _ hmore
    · exact ih _ hmore

theorem MakeCanonical_base_append (b raw acl_path : Str) (hb : MakeCanonical raw = some b)
    (hhead : acl_path.head? = some '/') (hstay : stays_under_root acl_path = true) :
    ∃ p, MakeCanonical (b ++ acl_path) = some p ∧ b <+: p := by
  obtain ⟨cs, hcs, rfl⟩ := MakeCanonical_result_form raw _ hb
  obtain ⟨t, rfl⟩ : ∃ t, acl_path = '/' :: t := by
    cases acl_path with
    | nil => simp at hhead
    | cons c t =>
      simp only [List.head?_cons, Option.some.injEq] at hhead
      exact ⟨t, by rw [hhead]⟩
  have hbhead : (MakeCanonical.render cs ++ '/' :: t).head? = some '/' := by
    unfold MakeCanonical.render
    split
    · rfl
    · rename_i hd
      obtain ⟨d, more, rfl⟩ := List.exists_cons_of_ne_nil hd
      rfl
  refine ⟨_, MakeCanonical_eq _ hbhead, ?_⟩
  rw [fold_segments_base_append cs t hcs]
  have := foldl_push_climb_free (segments ('/' :: t)) cs [] hstay
  rw [List.append_nil] at this
  rw [this]
  exact render_prefix _ _

/-- C3 (as stated, refuted): for the canonical base path `/store` and the resource path
`/../etc` (which starts with `/`), the rules emitted while iterating that base path have the
path `/etc`, of which `/store` is not a beginning. -/
theorem dotdot_escapes_base_path :
    MakeCanonical "/store".toList = some "/store".toList ∧
    GenerateAcls.base_path_body "/../etc".toList "read".toList [] "/store".toList =
      [(AOP_Read, "/etc".toList), (AOP_Stat, "/etc".toList)] ∧
    ¬ ("/store".toList <+: "/etc".toList) ∧
    GenerateAcls.xrd_rules
        { restrictedConfig with m_base_paths := ["/store".toList], m_restricted_paths := [] }
        [⟨"/../etc".toList, "read".toList⟩] =
      [(AOP_Read, "/etc".toList), (AOP_Stat, "/etc".toList)] := by
  decide

/-- C3 (amended): for every base path `b` in canonical form (a result of `MakeCanonical`, as
every configured base path is) and every resource path that never climbs above its own root
(each of its `..` segments has an earlier retained segment of the resource path to pop; in
particular every resource path without a `..` segment), each rule that `GenerateAcls` emits
while iterating `b` has a path of which `b` is a beginning. -/
theorem rule_path_under_base_path (b raw acl_path acl_authz : Str)
    (hb : MakeCanonical raw = some b) (hstay : stays_under_root acl_path = true) :
    ∀ rule ∈ GenerateAcls.base_path_body acl_path acl_authz [] b, b <+: rule.2 := by
  intro rule hrule
  unfold GenerateAcls.base_path_body at hrule
  split at hrule
  · cases hrule
  · rename_i hhead
    have hhead1 : acl_path.head? = some '/' := by
      by_contra hne
      exact hhead hne
    obtain ⟨p, hp, hpre⟩ := MakeCanonical_base_append b raw acl_path hb hhead1 hstay
    rw [hp] at hrule
    simp only [Option.getD_some, List.nil_append] at hrule
    split at hrule
    · rcases List.mem_cons.1 hrule with rfl | hrule
      · exact hpre
      · rw [List.mem_singleton] at hrule
        subst hrule
        exact hpre
    · split at hrule
      · rcases List.mem_cons.1 hrule with rfl | hrule
        · exact hpre
        · rw [List.mem_singleton] at hrule
          subst hrule
          exact hpre
      · cases hrule

/-- C3 (witness): base path `/store` and the resource path `/a/./../b`, whose `..` pops the
segment `a` of the resource path itself. -/
theorem rule_path_under_base_path_witness :
    MakeCanonical "//store/".toList = some "/store".toList ∧
    stays_under_root "/a/./../b".toList = true ∧
    GenerateAcls.base_path_body "/a/./../b".toList "read".toList [] "/store".toList =
      [(AOP_Read, "/store/b".toList), (AOP_Stat, "/store/b".toList)] ∧
    ∀ rule ∈ GenerateAcls.base_path_body "/a/./../b".toList "read".toList [] "/store".toList,
      "/store".toList <+: rule.2 :=
  ⟨by decide, by decide, by decide,
    rule_path_under_base_path "/store".toList "//store/".toList "/a/./../b".toList
      "read".toList (by decide) (by decide)⟩

theorem Reconfig.audience_loop_isSome (fuel : Nat) (rest : Str) (audiences : List Str)
    (hf : rest.length < fuel) : ∃ r, Reconfig.audience_loop fuel rest audiences = some r := by
  induction fuel generalizing rest audiences with
  | zero => omega
  | succ n ih =>
    simp only [Reconfig.audience_loop]
    split
    · exact ⟨_, rfl⟩
    · rename_i h2
      have hlen := scan_progress (fun c => c == ',' || c == ' ')
        (fun c => !(c == ',' || c == ' ')) (fun c => rfl) rest h2
      exact ih _ _ (by omega)

/-! ## Access without a credential -/

theorem Reconfig_m_chain {Token Enforcer : Type} (h : Host Token Enforcer)
    (self : XrdAccSciTokens) : (Reconfig h self).2.m_chain = self.m_chain := by
  unfold Reconfig
  repeat' split
  all_goals rfl

theorem Reconfig_m_map {Token Enforcer : Type} (h : Host Token Enforcer)
    (self : XrdAccSciTokens) : (Reconfig h self).2.m_map = self.m_map := by
  unfold Reconfig
  repeat' split
  all_goals rfl

theorem Check_m_chain {Token Enforcer : Type} (h : Host Token Enforcer)
    (self : XrdAccSciTokens) (now : Nat) : (Check h self now).m_chain = self.m_chain := by
  unfold Check
  split
  · rfl
  · simp only [Reconfig_m_chain]

theorem Check_not_due {Token Enforcer : Type} (h : Host Token Enforcer)
    (self : XrdAccSciTokens) (now : Nat) (hdue : now ≤ self.m_next_clean) :
    Check h self now = self := by
  unfold Check
  rw [if_pos hdue]

theorem sweep_of_none_expired (clk : Clock)
    (after_erase : List (Str × XrdAccRules) → List (Str × XrdAccRules))
    (visited rest : List (Str × XrdAccRules))
    (hlive : ∀ e ∈ rest, XrdAccRules.expired clk (ClockSite.sweep e.1) e.2 = false) :
    Check.sweep clk after_erase visited rest = visited ++ rest := by
  induction rest generalizing visited with
  | nil => simp [Check.sweep]
  | cons e more ih =>
    have he := hlive e (List.mem_cons_self _ _)
    simp only [Check.sweep, he, Bool.false_eq_true, if_false]
    rw [ih _ (fun x hx => hlive x (List.mem_cons_of_mem _ hx))]
    simp

theorem Check_m_map_of_no_erase {Token Enforcer : Type} (h : Host Token Enforcer)
    (self : XrdAccSciTokens) (now : Nat)
    (hdef : now ≤ self.m_next_clean ∨
      ∀ e ∈ self.m_map, XrdAccRules.expired h.clk (ClockSite.sweep e.1) e.2 = false) :
    (Check h self now).m_map = self.m_map := by
  by_cases hdue : now ≤ self.m_next_clean
  · rw [Check_not_due h self now hdue]
  · rcases hdef with hd | hlive
    · exact absurd hd hdue
    · unfold Check
      rw [if_neg hdue]
      simp only [Reconfig_m_map]
      rw [sweep_of_none_expired _ _ _ _ hlive]
      rfl

/-- C11: when the request carries no authorization attribute (`env` is null or has no
`authz` value), `Access` returns the chained authorizer's answer for the original
`(Entity, path, oper, env)` and records that one call and no other, or returns "no
privilege" with no call when there is no chain; the object (cache, configuration,
`m_next_clean`) and the entity are what they were, so no housekeeping ran and the verifier
was not called. -/
theorem access_without_authz {Token Enforcer : Type} (P : XrdAccPrivTable)
    (h : Host Token Enforcer) (self : XrdAccSciTokens) (Entity : XrdSecEntity) (path : Str)
    (oper : Access_Operation) (env : Option XrdOucEnv)
    (hno : env = none ∨ ∃ e, env = some e ∧ e.Get "authz".toList = none) :
    Access P h self Entity path oper env =
      match self.m_chain with
      | some chain =>
        { privs := chain Entity path oper env, self := self, Entity := Entity,
          calls := [ExtCall.chain_Access Entity path oper env] }
      | none =>
        { privs := P.XrdAccPriv_None, self := self, Entity := Entity, calls := [] } := by
  have hd : Access P h self Entity path oper env =
      Access.delegate P self Entity path oper env [] := by
    rcases hno with rfl | ⟨e, rfl, he⟩
    · rfl
    · unfold Access
      simp only [he]
  rw [hd]
  unfold Access.delegate
  cases self.m_chain <;> rfl

/-- C11 (witness): a request without environment against the scenario object with a chain
that answers `0x40`. -/
theorem access_without_authz_witness :
    ((none : Option XrdOucEnv) = none ∨
      ∃ e, (none : Option XrdOucEnv) = some e ∧ e.Get "authz".toList = none) ∧
    Access hostPrivs (scenarioHost 2000 5000 []) (scenarioObject (some (fun _ _ _ _ => 0x40)))
        ⟨none⟩ "/store/data/file.txt".toList AOP_Read none =
      match (scenarioObject (some (fun _ _ _ _ => 0x40))).m_chain with
      | some chain =>
        { privs := chain ⟨none⟩ "/store/data/file.txt".toList AOP_Read none,
          self := scenarioObject (some (fun _ _ _ _ => 0x40)), Entity := ⟨none⟩,
          calls := [ExtCall.chain_Access ⟨none⟩ "/store/data/file.txt".toList AOP_Read none] }
      | none =>
        { privs := hostPrivs.XrdAccPriv_None,
          self := scenarioObject (some (fun _ _ _ _ => 0x40)), Entity := ⟨none⟩,
          calls := [] } :=
  ⟨Or.inl rfl,
    access_without_authz hostPrivs (scenarioHost 2000 5000 [])
      (scenarioObject (some (fun _ _ _ _ => 0x40))) ⟨none⟩ "/store/data/file.txt".toList
      AOP_Read none (Or.inl rfl)⟩

/-! ## The decision of Access -/

theorem GenerateAcls_calls_not_chain {Token Enforcer : Type} (h : Host Token Enforcer)
    (self : XrdAccSciTokens) (authz : Str) :
    ∀ c ∈ (GenerateAcls h self authz).2, ExtCall.is_chain_call c = false := by
  unfold GenerateAcls
  split
  · intro c hc
    rw [List.mem_singleton] at hc
    subst hc
    rfl
  · intro c hc
    cases hc

theorem decide_with_spec (P : XrdAccPrivTable) (self : XrdAccSciTokens) (Entity : XrdSecEntity)
    (path : Str) (oper : Access_Operation) (env : Option XrdOucEnv)
    (rules : XrdAccRules) (calls : List ExtCall) :
    (rules.apply P oper path ≠ P.XrdAccPriv_None →
      (Access.decide_with P self Entity path oper env rules calls).privs =
          rules.apply P oper path ∧
        (Access.decide_with P self Entity path oper env rules calls).calls = calls) ∧
    (rules.apply P oper path = P.XrdAccPriv_None →
      ∀ chain, self.m_chain = some chain →
        (Access.decide_with P self Entity path oper env rules calls).privs =
            chain (Access.decide_with P self Entity path oper env rules calls).Entity
              path oper env ∧
          (Access.decide_with P self Entity path oper env rules calls).calls =
            calls ++ [ExtCall.chain_Access
              (Access.decide_with P self Entity path oper env rules calls).Entity
              path oper env]) ∧
    (rules.apply P oper path = P.XrdAccPriv_None → self.m_chain = none →
      (Access.decide_with P self Entity path oper env rules calls).privs =
          P.XrdAccPriv_None ∧
        (Access.decide_with P self Entity path oper env rules calls).calls = calls) := by
  refine ⟨?_, ?_, ?_⟩
  · intro hne
    unfold Access.decide_with
    simp only
    rw [if_neg (fun hh => hne hh.1)]
    exact ⟨rfl, rfl⟩
  · intro heq chain hchain
    unfold Access.decide_with Access.delegate
    simp only [hchain]
    rw [if_pos ⟨heq, rfl⟩]
    exact ⟨rfl, rfl⟩
  · intro heq hchain
    unfold Access.decide_with
    simp only [hchain]
    rw [if_neg (by rintro ⟨_, hh⟩; cases hh)]
    exact ⟨heq, rfl⟩

theorem Access_of_hit {Token Enforcer : Type} (P : XrdAccPrivTable)
    (h : Host Token Enforcer) (self : XrdAccSciTokens) (Entity : XrdSecEntity) (path : Str)
    (oper : Access_Operation) (env : XrdOucEnv) (authz : Str) (rules : XrdAccRules)
    (hauthz : env.Get "authz".toList = some authz)
    (hhit : Access.cache_lookup h.clk
      (Check h self (monotonic_time h.clk ClockSite.access)) authz = some rules) :
    Access P h self Entity path oper (some env) =
      Access.decide_with P (Check h self (monotonic_time h.clk ClockSite.access)) Entity path
        oper (some env) rules [] := by
  unfold Access
  simp only [hauthz, hhit]

theorem Access_of_miss {Token Enforcer : Type} (P : XrdAccPrivTable)
    (h : Host Token Enforcer) (self : XrdAccSciTokens) (Entity : XrdSecEntity) (path : Str)
    (oper : Access_Operation) (env : XrdOucEnv) (authz : Str)
    (hauthz : env.Get "authz".toList = some authz)
    (hmiss : Access.cache_lookup h.clk
      (Check h self (monotonic_time h.clk ClockSite.access)) authz = none) :
    Access P h self Entity path oper (some env) =
      Access.on_miss P h (Check h self (monotonic_time h.clk ClockSite.access)) Entity path
        oper (some env) authz (monotonic_time h.clk ClockSite.access) := by
  unfold Access
  simp only [hauthz, hmiss]

theorem on_miss_of_verified {Token Enforcer : Type} (P : XrdAccPrivTable)
    (h : Host Token Enforcer) (self1 : XrdAccSciTokens) (Entity : XrdSecEntity) (path : Str)
    (oper : Access_Operation) (env : Option XrdOucEnv) (authz : Str) (now : Nat)
    (r : GenerateAclsResult) (hraise : h.try_raises = none)
    (hgen : (GenerateAcls h self1 authz).1 = some r) :
    Access.on_miss P h self1 Entity path oper env authz now =
      Access.decide_with P
        { self1 with
          m_map := map_assign self1.m_map authz
            (XrdAccRules.parse
              { m_rules := [], m_expiry_time := (now + r.cache_expiry) % UINT64_MOD,
                m_username := r.username } r.rules) }
        Entity path oper env
        (XrdAccRules.parse
          { m_rules := [], m_expiry_time := (now + r.cache_expiry) % UINT64_MOD,
            m_username := r.username } r.rules)
        (GenerateAcls h self1 authz).2 := by
  rcases hg : GenerateAcls h self1 authz with ⟨res, calls⟩
  rw [hg] at hgen
  simp only at hgen
  subst hgen
  unfold Access.on_miss
  simp only [hraise, hg]

theorem on_miss_of_failure {Token Enforcer : Type} (P : XrdAccPrivTable)
    (h : Host Token Enforcer) (self1 : XrdAccSciTokens) (Entity : XrdSecEntity) (path : Str)
    (oper : Access_Operation) (env : Option XrdOucEnv) (authz : Str) (now : Nat)
    (hfail : h.try_raises ≠ none ∨ (GenerateAcls h self1 authz).1 = none) :
    ∃ calls, Access.on_miss P h self1 Entity path oper env authz now =
      Access.delegate P self1 Entity path oper env calls := by
  unfold Access.on_miss
  cases hr : h.try_raises with
  | some calls => exact ⟨calls, rfl⟩
  | none =>
    rcases hfail with hf | hf
    · exact absurd hr hf
    · rcases hg : GenerateAcls h self1 authz with ⟨res, calls⟩
      rw [hg] at hf
      simp only at hf
      subst hf
      exact ⟨calls, rfl⟩

theorem filter_chain_calls (calls : List ExtCall) (c : ExtCall)
    (hcalls : ∀ x ∈ calls, ExtCall.is_chain_call x = false)
    (hc : ExtCall.is_chain_call c = true) :
    (calls ++ [c]).filter ExtCall.is_chain_call = [c] := by
  rw [List.filter_append, List.filter_eq_nil_iff.2 (fun x hx => by simp [hcalls x hx])]
  simp [List.filter_cons, hc]

/-- C12: once a rule set has been obtained for the request, by a live cache hit or by a
fresh verification, `Access` returns the result `m` of `apply(oper, path)` itself whenever
`m` is not "no privilege", and then records no call of the chained authorizer; when `m` is
"no privilege" it returns the answer of the chained authorizer (called exactly once, with
the entity as `Access` leaves it) if there is a chain, and "no privilege" without any chain
call otherwise. -/
theorem access_returns_match_or_delegates {Token Enforcer : Type} (P : XrdAccPrivTable)
    (h : Host Token Enforcer) (self : XrdAccSciTokens) (Entity : XrdSecEntity) (path : Str)
    (oper : Access_Operation) (env : XrdOucEnv) (authz : Str) (rules : XrdAccRules)
    (now : Nat) (self1 : XrdAccSciTokens) (res : AccessResult)
    (hnow : now = monotonic_time h.clk ClockSite.access)
    (hself1 : self1 = Check h self now)
    (hres : res = Access P h self Entity path oper (some env))
    (hauthz : env.Get "authz".toList = some authz)
    (hrules : Access.cache_lookup h.clk self1 authz = some rules ∨
      (Access.cache_lookup h.clk self1 authz = none ∧ h.try_raises = none ∧
        ∃ r, (GenerateAcls h self1 authz).1 = some r ∧
          rules = XrdAccRules.parse
            { m_rules := [], m_expiry_time := (now + r.cache_expiry) % UINT64_MOD,
              m_username := r.username } r.rules)) :
    (rules.apply P oper path ≠ P.XrdAccPriv_None →
      res.privs = rules.apply P oper path ∧
        ∀ c ∈ res.calls, ExtCall.is_chain_call c = false) ∧
    (rules.apply P oper path = P.XrdAccPriv_None →
      ∀ chain, self.m_chain = some chain →
        res.privs = chain res.Entity path oper (some env) ∧
          res.calls.filter ExtCall.is_chain_call =
            [ExtCall.chain_Access res.Entity path oper (some env)]) ∧
    (rules.apply P oper path = P.XrdAccPriv_None → self.m_chain = none →
      res.privs = P.XrdAccPriv_None ∧ ∀ c ∈ res.calls, ExtCall.is_chain_call c = false) := by
  subst hnow hself1
  -- in both cases `Access` is `decide_with` on an object with the same chain
  obtain ⟨selfX, calls0, hchain, hcalls0, hdw⟩ :
      ∃ (selfX : XrdAccSciTokens) (calls0 : List ExtCall),
        selfX.m_chain = self.m_chain ∧
        (∀ c ∈ calls0, ExtCall.is_chain_call c = false) ∧
        res = Access.decide_with P selfX Entity path oper (some env) rules calls0 := by
    rcases hrules with hhit | ⟨hmiss, hraise, r, hgen, hr⟩
    · exact ⟨_, [], Check_m_chain h self _, (fun c hc => by cases hc),
        hres.trans (Access_of_hit P h self Entity path oper env authz rules hauthz hhit)⟩
    · subst hr
      refine ⟨_, _, ?_, GenerateAcls_calls_not_chain h _ authz, hres.trans
        ((Access_of_miss P h self Entity path oper env authz hauthz hmiss).trans
          (on_miss_of_verified P h _ Entity path oper (some env) authz _ r hraise hgen))⟩
      exact Check_m_chain h self _
  obtain ⟨h1, h2, h3⟩ := decide_with_spec P selfX Entity path oper (some env) rules calls0
  rw [hdw]
  refine ⟨?_, ?_, ?_⟩
  · intro hne
    obtain ⟨hp, hc⟩ := h1 hne
    rw [hc]
    exact ⟨hp, hcalls0⟩
  · intro heq chain hch
    obtain ⟨hp, hc⟩ := h2 heq chain (hchain.trans hch)
    rw [hc]
    exact ⟨hp, filter_chain_calls _ _ hcalls0 rfl⟩
  · intro heq hch
    obtain ⟨hp, hc⟩ := h3 heq (hchain.trans hch)
    rw [hc]
    exact ⟨hp, hcalls0⟩

/-- C12 (witness): a live cache hit in the scenario, requested for `/store/other`, which
none of the cached rules matches, with a chain that answers `0x40`. -/
theorem access_returns_match_or_delegates_witness :
    (envWithAuthz "Bearer%20aa.bb.cc".toList).Get "authz".toList =
      some "Bearer%20aa.bb.cc".toList ∧
    XrdAccRules.apply hostPrivs
        ⟨[(AOP_Read, "/store/data".toList), (AOP_Stat, "/store/data".toList)], 1060,
          "alice".toList⟩ AOP_Read "/store/other".toList = hostPrivs.XrdAccPriv_None ∧
    (Access hostPrivs (scenarioHost 1000 5000 [])
        (cachedObject (some (fun _ _ _ _ => 0x40)) 1060) ⟨none⟩ "/store/other".toList
        AOP_Read (some (envWithAuthz "Bearer%20aa.bb.cc".toList))).privs = 0x40 ∧
    (Access hostPrivs (scenarioHost 1000 5000 [])
        (cachedObject (some (fun _ _ _ _ => 0x40)) 1060) ⟨none⟩ "/store/other".toList
        AOP_Read (some (envWithAuthz "Bearer%20aa.bb.cc".toList))).calls.filter
        ExtCall.is_chain_call =
      [ExtCall.chain_Access ⟨some "alice".toList⟩ "/store/other".toList AOP_Read
        (some (envWithAuthz "Bearer%20aa.bb.cc".toList))] :=
  ⟨rfl, by decide,
    ((access_returns_match_or_delegates hostPrivs (scenarioHost 1000 5000 [])
      (cachedObject (some (fun _ _ _ _ => 0x40)) 1060) ⟨none⟩ "/store/other".toList AOP_Read
      (envWithAuthz "Bearer%20aa.bb.cc".toList) "Bearer%20aa.bb.cc".toList
      ⟨[(AOP_Read, "/store/data".toList), (AOP_Stat, "/store/data".toList)], 1060,
        "alice".toList⟩
      _ _ _ rfl rfl rfl rfl (Or.inl rfl)).2.1 (by decide) _ rfl).1,
    ((access_returns_match_or_delegates hostPrivs (scenarioHost 1000 5000 [])
      (cachedObject (some (fun _ _ _ _ => 0x40)) 1060) ⟨none⟩ "/store/other".toList AOP_Read
      (envWithAuthz "Bearer%20aa.bb.cc".toList) "Bearer%20aa.bb.cc".toList
      ⟨[(AOP_Read, "/store/data".toList), (AOP_Stat, "/store/data".toList)], 1060,
        "alice".toList⟩
      _ _ _ rfl rfl rfl rfl (Or.inl rfl)).2.1 (by decide) _ rfl).2⟩

/-! ## Cache hit, cache miss and failed verification -/

theorem delegate_spec (P : XrdAccPrivTable) (self : XrdAccSciTokens) (Entity : XrdSecEntity)
    (path : Str) (oper : Access_Operation) (env : Option XrdOucEnv) (calls : List ExtCall) :
    (Access.delegate P self Entity path oper env calls).privs =
        (match self.m_chain with
          | some chain => chain Entity path oper env
          | none => P.XrdAccPriv_None) ∧
      (Access.delegate P self Entity path oper env calls).self = self ∧
      (Access.delegate P self Entity path oper env calls).Entity = Entity ∧
      calls <+: (Access.delegate P self Entity path oper env calls).calls ∧
      ((∀ c ∈ calls, ExtCall.is_verifier_call c = false) →
        ∀ c ∈ (Access.delegate P self Entity path oper env calls).calls,
          ExtCall.is_verifier_call c = false) := by
  unfold Access.delegate
  cases self.m_chain with
  | none => exact ⟨rfl, rfl, rfl, List.prefix_refl _, fun hc => hc⟩
  | some chain =>
    refine ⟨rfl, rfl, rfl, List.prefix_append _ _, ?_⟩
    intro hc c hmem
    rcases List.mem_append.1 hmem with hm | hm
    · exact hc c hm
    · rw [List.mem_singleton] at hm
      subst hm
      rfl

theorem decide_with_calls (P : XrdAccPrivTable) (self : XrdAccSciTokens)
    (Entity : XrdSecEntity) (path : Str) (oper : Access_Operation) (env : Option XrdOucEnv)
    (rules : XrdAccRules) (calls : List ExtCall) :
    calls <+: (Access.decide_with P self Entity path oper env rules calls).calls ∧
      ((∀ c ∈ calls, ExtCall.is_verifier_call c = false) →
        ∀ c ∈ (Access.decide_with P self Entity path oper env rules calls).calls,
          ExtCall.is_verifier_call c = false) := by
  unfold Access.decide_with
  simp only
  split
  · exact ⟨(delegate_spec P self _ path oper env calls).2.2.2.1,
      (delegate_spec P self _ path oper env calls).2.2.2.2⟩
  · exact ⟨List.prefix_refl _, fun hc => hc⟩

theorem cache_lookup_eq_none_iff (clk : Clock) (self : XrdAccSciTokens) (authz : Str) :
    Access.cache_lookup clk self authz = none ↔
      (map_find self.m_map authz = none ∨
        ∃ rules, map_find self.m_map authz = some rules ∧
          XrdAccRules.expired clk ClockSite.lookup rules = true) := by
  unfold Access.cache_lookup
  cases hf : map_find self.m_map authz with
  | none => simp
  | some rules =>
    cases he : XrdAccRules.expired clk ClockSite.lookup rules <;> simp [he]

/-- C13 (amended): for a request that carries a credential, with the cache as the
housekeeping step of the request leaves it: `Access` goes to the verifier (the `try` block
around `GenerateAcls`) if and only if the cache holds no entry under the exact credential
string or the entry it holds is expired; on a live hit the decision is computed from the
cached rule set, no call of the verifier is recorded and the cache mapping is the one the
housekeeping step left, which is the mapping from before the call whenever the sweep erases
nothing (housekeeping is not due, or no entry is expired). -/
theorem verifier_called_iff_cache_miss {Token Enforcer : Type} (P : XrdAccPrivTable)
    (h : Host Token Enforcer) (self : XrdAccSciTokens) (Entity : XrdSecEntity) (path : Str)
    (oper : Access_Operation) (env : XrdOucEnv) (authz : Str)
    (now : Nat) (self1 : XrdAccSciTokens) (res : AccessResult)
    (hnow : now = monotonic_time h.clk ClockSite.access)
    (hself1 : self1 = Check h self now)
    (hres : res = Access P h self Entity path oper (some env))
    (hauthz : env.Get "authz".toList = some authz) :
    (Access.cache_lookup h.clk self1 authz = none ↔
      (map_find self1.m_map authz = none ∨
        ∃ rules, map_find self1.m_map authz = some rules ∧
          XrdAccRules.expired h.clk ClockSite.lookup rules = true)) ∧
    (Access.cache_lookup h.clk self1 authz = none →
      res = Access.on_miss P h self1 Entity path oper (some env) authz now ∧
        (h.try_raises = none → (GenerateAcls h self1 authz).2 <+: res.calls)) ∧
    (∀ rules, Access.cache_lookup h.clk self1 authz = some rules →
      res = Access.decide_with P self1 Entity path oper (some env) rules [] ∧
        res.self.m_map = self1.m_map ∧
        ∀ c ∈ res.calls, ExtCall.is_verifier_call c = false) ∧
    ((now ≤ self.m_next_clean ∨
        ∀ e ∈ self.m_map, XrdAccRules.expired h.clk (ClockSite.sweep e.1) e.2 = false) →
      self1.m_map = self.m_map) := by
  subst hnow hself1
  refine ⟨cache_lookup_eq_none_iff _ _ _, ?_, ?_, Check_m_map_of_no_erase h self _⟩
  · intro hmiss
    have hacc := hres.trans (Access_of_miss P h self Entity path oper env authz hauthz hmiss)
    refine ⟨hacc, ?_⟩
    intro hraise
    rw [hacc]
    unfold Access.on_miss
    simp only [hraise]
    rcases hg : GenerateAcls h (Check h self (monotonic_time h.clk ClockSite.access)) authz
      with ⟨r, calls⟩
    cases r with
    | none => exact (delegate_spec P _ Entity path oper (some env) calls).2.2.2.1
    | some r => exact (decide_with_calls P _ Entity path oper (some env) _ calls).1
  · intro rules hhit
    have hacc := hres.trans (Access_of_hit P h self Entity path oper env authz rules hauthz hhit)
    refine ⟨hacc, ?_, ?_⟩
    · rw [hacc, decide_with_self]
    · rw [hacc]
      exact (decide_with_calls P _ Entity path oper (some env) rules []).2
        (fun c hc => by cases hc)

/-- C13 (witness): in the scenario, a request at time 1000 with the credential whose rule
set is cached until 1060 is a live hit. -/
theorem verifier_called_iff_cache_miss_witness :
    (envWithAuthz "Bearer%20aa.bb.cc".toList).Get "authz".toList =
      some "Bearer%20aa.bb.cc".toList ∧
    Access.cache_lookup (scenarioHost 1000 5000 []).clk (cachedObject none 1060)
        "Bearer%20aa.bb.cc".toList =
      some ⟨[(AOP_Read, "/store/data".toList), (AOP_Stat, "/store/data".toList)], 1060,
        "alice".toList⟩ ∧
    (Access hostPrivs (scenarioHost 1000 5000 []) (cachedObject none 1060) ⟨none⟩
        "/store/data/file.txt".toList AOP_Read
        (some (envWithAuthz "Bearer%20aa.bb.cc".toList))).self.m_map =
      (cachedObject none 1060).m_map ∧
    ∀ c ∈ (Access hostPrivs (scenarioHost 1000 5000 []) (cachedObject none 1060) ⟨none⟩
        "/store/data/file.txt".toList AOP_Read
        (some (envWithAuthz "Bearer%20aa.bb.cc".toList))).calls,
      ExtCall.is_verifier_call c = false :=
  ⟨rfl, rfl,
    ((verifier_called_iff_cache_miss hostPrivs (scenarioHost 1000 5000 [])
      (cachedObject none 1060) ⟨none⟩ "/store/data/file.txt".toList AOP_Read
      (envWithAuthz "Bearer%20aa.bb.cc".toList) "Bearer%20aa.bb.cc".toList
      _ _ _ rfl rfl rfl rfl).2.2.1 _ rfl).2.1,
    ((verifier_called_iff_cache_miss hostPrivs (scenarioHost 1000 5000 [])
      (cachedObject none 1060) ⟨none⟩ "/store/data/file.txt".toList AOP_Read
      (envWithAuthz "Bearer%20aa.bb.cc".toList) "Bearer%20aa.bb.cc".toList
      _ _ _ rfl rfl rfl rfl).2.2.1 _ rfl).2.2⟩

/-- C14: whenever verification fails on a cache miss (`GenerateAcls` returns `false`, or the
`try` block raises a `std::exception`), `Access` returns a value, which is exactly the
chained authorizer's answer for the request ("no privilege" when there is no chain), and
nothing is inserted: the object, its cache mapping included, is what the housekeeping step
left, and the entity is unchanged. -/
theorem failed_verification_delegates {Token Enforcer : Type} (P : XrdAccPrivTable)
    (h : Host Token Enforcer) (self : XrdAccSciTokens) (Entity : XrdSecEntity) (path : Str)
    (oper : Access_Operation) (env : XrdOucEnv) (authz : Str)
    (now : Nat) (self1 : XrdAccSciTokens) (res : AccessResult)
    (hnow : now = monotonic_time h.clk ClockSite.access)
    (hself1 : self1 = Check h self now)
    (hres : res = Access P h self Entity path oper (some env))
    (hauthz : env.Get "authz".toList = some authz)
    (hmiss : Access.cache_lookup h.clk self1 authz = none)
    (hfail : h.try_raises ≠ none ∨ (GenerateAcls h self1 authz).1 = none) :
    res.privs =
        (match self.m_chain with
          | some chain => chain Entity path oper (some env)
          | none => P.XrdAccPriv_None) ∧
      res.self = self1 ∧ res.self.m_map = self1.m_map ∧ res.Entity = Entity := by
  subst hnow hself1
  obtain ⟨calls, hd⟩ := on_miss_of_failure P h
    (Check h self (monotonic_time h.clk ClockSite.access)) Entity path oper (some env) authz
    (monotonic_time h.clk ClockSite.access) hfail
  have hacc := (hres.trans
    (Access_of_miss P h self Entity path oper env authz hauthz hmiss)).trans hd
  obtain ⟨hp, hs, he, _, _⟩ := delegate_spec P
    (Check h self (monotonic_time h.clk ClockSite.access)) Entity path oper (some env) calls
  rw [Check_m_chain] at hp
  rw [hacc]
  exact ⟨hp, hs, by rw [hs], he⟩

/-- C14 (witness): in the scenario with a chain that answers `0x40`, the credential
`Bearer%20garbage` fails the structural check of `GenerateAcls`. -/
theorem failed_verification_delegates_witness :
    (envWithAuthz "Bearer%20garbage".toList).Get "authz".toList =
      some "Bearer%20garbage".toList ∧
    (GenerateAcls (scenarioHost 1000 5000 []) (scenarioObject (some (fun _ _ _ _ => 0x40)))
      "Bearer%20garbage".toList).1 = none ∧
    (Access hostPrivs (scenarioHost 1000 5000 []) (scenarioObject (some (fun _ _ _ _ => 0x40)))
        ⟨none⟩ "/store/data/file.txt".toList AOP_Read
        (some (envWithAuthz "Bearer%20garbage".toList))).privs = 0x40 ∧
    (Access hostPrivs (scenarioHost 1000 5000 []) (scenarioObject (some (fun _ _ _ _ => 0x40)))
        ⟨none⟩ "/store/data/file.txt".toList AOP_Read
        (some (envWithAuthz "Bearer%20garbage".toList))).self.m_map = [] :=
  ⟨rfl, rfl,
    (failed_verification_delegates hostPrivs (scenarioHost 1000 5000 [])
      (scenarioObject (some (fun _ _ _ _ => 0x40))) ⟨none⟩ "/store/data/file.txt".toList
      AOP_Read (envWithAuthz "Bearer%20garbage".toList) "Bearer%20garbage".toList
      _ _ _ rfl rfl rfl rfl rfl (Or.inr rfl)).1,
    (failed_verification_delegates hostPrivs (scenarioHost 1000 5000 [])
      (scenarioObject (some (fun _ _ _ _ => 0x40))) ⟨none⟩ "/store/data/file.txt".toList
      AOP_Read (envWithAuthz "Bearer%20garbage".toList) "Bearer%20garbage".toList
      _ _ _ rfl rfl rfl rfl rfl (Or.inr rfl)).2.2.1⟩

/-! ## Failed reloads -/

theorem json_audiences_none (items : List JsonItem) (audiences : List Str)
    (h : JsonItem.other ∈ items) : Reconfig.json_audiences items audiences = none := by
  induction items generalizing audiences with
  | nil => cases h
  | cons it more ih =>
    cases it with
    | other => rfl
    | str s =>
      simp only [Reconfig.json_audiences]
      apply ih
      rcases List.mem_cons.1 h with hh | hh
      · cases hh
      · exact hh

theorem global_section_none (reader : INIReader) (pj : Str → JsonValue × Str) (s : Str)
    (audiences : List Str) (hbad : audience_json_malformed reader pj s) :
    Reconfig.global_section reader pj s audiences = none := by
  obtain ⟨hset, hcase⟩ := hbad
  unfold Reconfig.global_section
  simp only
  rw [if_pos hset]
  rcases hcase with herr | hother | ⟨items, harr, hmem⟩
  · rw [if_pos herr]
  · split
    · rfl
    · rw [hother]
  · split
    · rfl
    · rw [harr]
      exact json_audiences_none items _ hmem

theorem sections_none (reader : INIReader) (pj : Str → JsonValue × Str) (secs : List Str)
    (hbad : ∃ s ∈ secs, (s.map tolower).take 6 = "global".toList ∧
      audience_json_malformed reader pj s)
    (audiences : List Str) (issuers : List (Str × IssuerConfig)) :
    Reconfig.sections reader pj secs audiences issuers = none := by
  induction secs generalizing audiences issuers with
  | nil =>
    obtain ⟨s, hs, _⟩ := hbad
    cases hs
  | cons s0 more ih =>
    obtain ⟨s, hs, hglobal, hmal⟩ := hbad
    simp only [Reconfig.sections]
    rcases List.mem_cons.1 hs with rfl | hs
    · rw [if_pos hglobal, global_section_none reader pj s audiences hmal]
    · split
      · rfl
      · exact ih ⟨s, hs, hglobal, hmal⟩ _ _

theorem issuer_section_skips (reader : INIReader) (s : Str)
    (issuers : List (Str × IssuerConfig)) (hno : ¬ issuer_section_resolves reader s) :
    Reconfig.issuer_section reader s issuers = issuers := by
  unfold Reconfig.issuer_section
  split
  · rfl
  · rename_i h1
    simp only
    split
    · rfl
    · rename_i h2
      split
      · rfl
      · rename_i h3
        split
        · rfl
        · rename_i h4
          exact absurd ⟨not_not.1 h1, h2, h3, h4⟩ hno

theorem sections_issuers_unchanged (reader : INIReader) (pj : Str → JsonValue × Str)
    (secs : List Str) (hno : ∀ s ∈ secs, ¬ issuer_section_resolves reader s)
    (audiences : List Str) (issuers : List (Str × IssuerConfig))
    (res : List Str × List (Str × IssuerConfig))
    (hres : Reconfig.sections reader pj secs audiences issuers = some res) :
    res.2 = issuers := by
  induction secs generalizing audiences issuers with
  | nil =>
    simp only [Reconfig.sections, Option.some.injEq] at hres
    rw [← hres]
  | cons s more ih =>
    simp only [Reconfig.sections] at hres
    split at hres
    · cases hres
    · rw [issuer_section_skips reader s issuers (hno s (List.mem_cons_self _ _))] at hres
      exact ih (fun x hx => hno x (List.mem_cons_of_mem _ hx)) _ _ hres

/-- C15: if a reload fails because the configuration cannot be opened or parsed
(`ParseError` is not 0), because the `audience_json` value of a `global` section is
malformed, or because no section resolves to an issuer, `Reconfig` returns `false` and the
object (issuer map, audience list, trusted-issuer list and everything else) is exactly what
it was before the call. -/
theorem failed_reload_keeps_configuration {Token Enforcer : Type} (h : Host Token Enforcer)
    (self : XrdAccSciTokens)
    (hfail : h.reader.ParseError ≠ 0 ∨
      (∃ s ∈ h.reader.Sections, (s.map tolower).take 6 = "global".toList ∧
        audience_json_malformed h.reader h.picojson_parse s) ∨
      (∀ s ∈ h.reader.Sections, ¬ issuer_section_resolves h.reader s)) :
    Reconfig h self = (false, self) := by
  unfold Reconfig
  split
  · rfl
  · split
    · rfl
    · rename_i hp1 hp2
      rcases hfail with hpe | hbad | hnone
      · exact absurd hpe hp2
      · rw [sections_none h.reader h.picojson_parse _ hbad]
      · split
        · rfl
        · rename_i audiences issuers heq
          have := sections_issuers_unchanged h.reader h.picojson_parse _ hnone [] [] _ heq
          simp only at this
          subst this
          rfl

/-- C15 (witness): a reload from a file whose `[Global]` section has an `audience_json`
array with an element that is not a string leaves the configured scenario object as it
is. -/
theorem failed_reload_keeps_configuration_witness :
    (∃ s ∈ badJsonHost.reader.Sections, (s.map tolower).take 6 = "global".toList ∧
      audience_json_malformed badJsonHost.reader badJsonHost.picojson_parse s) ∧
    Reconfig badJsonHost (scenarioObject none) = (false, scenarioObject none) :=
  ⟨⟨"Global".toList, by decide, by decide, by decide,
      Or.inr (Or.inr ⟨[JsonItem.other], rfl, List.mem_cons_self _ _⟩)⟩,
    failed_reload_keeps_configuration badJsonHost (scenarioObject none)
      (Or.inr (Or.inl ⟨"Global".toList, by decide, by decide, by decide,
        Or.inr (Or.inr ⟨[JsonItem.other], rfl, List.mem_cons_self _ _⟩)⟩))⟩

/-! ## Properties of MakeCanonical -/

theorem segments_flatMap (cs : List Str) (hcs : ∀ c ∈ cs, valid_segment c) (hne : cs ≠ []) :
    segments (cs.flatMap (fun comp => '/' :: comp)) = [] :: cs := by
  induction cs with
  | nil => exact absurd rfl hne
  | cons c more ih =>
    have hc := hcs c (List.mem_cons_self _ _)
    simp only [List.flatMap_cons, List.cons_append]
    rw [segments_slash_cons]
    by_cases hm : more = []
    · subst hm
      simp only [List.flatMap_nil, List.append_nil]
      rw [segments_of_no_slash c hc.2.2.2]
    · have ih1 := ih (fun x hx => hcs x (List.mem_cons_of_mem _ hx)) hm
      obtain ⟨u, hu⟩ : ∃ u, more.flatMap (fun comp => '/' :: comp) = '/' :: u := by
        cases more with
        | nil => exact absurd rfl hm
        | cons m ms => exact ⟨_, by rw [List.flatMap_cons]; rfl⟩
      rw [hu, segments_slash_cons] at ih1
      rw [hu, segments_append_slash c u hc.2.2.2]
      have : segments u = more := by
        injection ih1
      rw [this]

theorem MakeCanonical_render (cs : List Str) (hcs : ∀ c ∈ cs, valid_segment c) :
    MakeCanonical (MakeCanonical.render cs) = some (MakeCanonical.render cs) := by
  by_cases hne : cs = []
  · subst hne
    decide
  · have hrender : MakeCanonical.render cs = cs.flatMap (fun comp => '/' :: comp) := by
      unfold MakeCanonical.render
      rw [if_neg hne]
    have hhead : (MakeCanonical.render cs).head? = some '/' := by
      rw [hrender]
      obtain ⟨d, more, rfl⟩ := List.exists_cons_of_ne_nil hne
      rfl
    rw [MakeCanonical_eq _ hhead]
    congr 2
    rw [hrender, segments_flatMap cs hcs hne, List.foldl_cons, push_nil,
      foldl_push_valid cs [] hcs, List.nil_append]

/-- C16: canonicalization is idempotent: for every path that starts with `/`,
`MakeCanonical` succeeds with some result `r`, and `MakeCanonical` applied to `r` succeeds
with the result `r` again. -/
theorem MakeCanonical_idempotent (path : Str) (hpath : path.head? = some '/') :
    ∃ r, MakeCanonical path = some r ∧ MakeCanonical r = some r := by
  refine ⟨_, MakeCanonical_eq path hpath, ?_⟩
  obtain ⟨cs, hcs, hr⟩ := MakeCanonical_result_form path _ (MakeCanonical_eq path hpath)
  rw [hr]
  exact MakeCanonical_render cs hcs

/-- C16 (witness): the path `//a/./b/../c/`. -/
theorem MakeCanonical_idempotent_witness :
    "//a/./b/../c/".toList.head? = some '/' ∧
    MakeCanonical "//a/./b/../c/".toList = some "/a/c".toList ∧
    MakeCanonical "/a/c".toList = some "/a/c".toList ∧
    ∃ r, MakeCanonical "//a/./b/../c/".toList = some r ∧ MakeCanonical r = some r :=
  ⟨rfl, by decide, by decide, MakeCanonical_idempotent "//a/./b/../c/".toList rfl⟩

/-- C17: a `..` component pops the last retained component and changes nothing when none
is retained; `MakeCanonical` succeeds on every path that starts with `/`, however many `..`
it holds; `MakeCanonical("/a/../../b")` is `/b`; and for every path `p` that starts with
`/`, `MakeCanonical("/.." + p)` equals `MakeCanonical(p)`. -/
theorem dotdot_pops_or_is_noop (path : Str) (hpath : path.head? = some '/') :
    (∀ (components : List Str) (c : Str),
      MakeCanonical.push (components ++ [c]) ['.', '.'] = components) ∧
    MakeCanonical.push [] ['.', '.'] = [] ∧
    (∃ r, MakeCanonical path = some r) ∧
    MakeCanonical "/a/../../b".toList = some "/b".toList ∧
    MakeCanonical ("/..".toList ++ path) = MakeCanonical path := by
  refine ⟨?_, by decide, ⟨_, MakeCanonical_eq path hpath⟩, by decide, ?_⟩
  · intro components c
    simp [MakeCanonical.push]
  · obtain ⟨t, rfl⟩ : ∃ t, path = '/' :: t := by
      cases path with
      | nil => simp at hpath
      | cons c t =>
        simp only [List.head?_cons, Option.some.injEq] at hpath
        exact ⟨t, by rw [hpath]⟩
    rw [MakeCanonical_eq _ hpath, MakeCanonical_eq ("/..".toList ++ '/' :: t) rfl]
    rfl

/-- C17 (witness): the path `/../x/..`, with more `..` components than retained ones. -/
theorem dotdot_pops_or_is_noop_witness :
    "/../x/..".toList.head? = some '/' ∧
    MakeCanonical "/../x/..".toList = some "/".toList ∧
    MakeCanonical ("/..".toList ++ "/../x/..".toList) = MakeCanonical "/../x/..".toList :=
  ⟨rfl, by decide, (dotdot_pops_or_is_noop "/../x/..".toList rfl).2.2.2.2⟩

theorem foldl_push_nothing_retained (segs : List Str)
    (h : ∀ s ∈ segs, s = [] ∨ s = ['.'] ∨ s = ['.', '.']) :
    segs.foldl MakeCanonical.push [] = [] := by
  induction segs with
  | nil => rfl
  | cons s more ih =>
    rw [List.foldl_cons]
    have hs : MakeCanonical.push [] s = [] := by
      rcases h s (List.mem_cons_self _ _) with rfl | rfl | rfl <;> decide
    rw [hs]
    exact ih (fun x hx => h x (List.mem_cons_of_mem _ hx))

/-- C18: `MakeCanonical` returns failure if and only if the input is empty or its first
character is not `/`; so it succeeds on every input that starts with `/`; an input that
starts with `/` and all of whose segments are empty, `.` or `..` yields exactly `/`, as do
`/`, `//`, `/.` and `/..`. -/
theorem MakeCanonical_fails_iff (path : Str) :
    (MakeCanonical path = none ↔ (path = [] ∨ path.head? ≠ some '/')) ∧
    (path.head? = some '/' → ∃ r, MakeCanonical path = some r) ∧
    (path.head? = some '/' →
      (∀ s ∈ segments path, s = [] ∨ s = ['.'] ∨ s = ['.', '.']) →
      MakeCanonical path = some ['/']) ∧
    (MakeCanonical "/".toList = some "/".toList ∧ MakeCanonical "//".toList = some "/".toList ∧
      MakeCanonical "/.".toList = some "/".toList ∧
      MakeCanonical "/..".toList = some "/".toList ∧
      MakeCanonical [] = none ∧ MakeCanonical "a/b".toList = none) := by
  refine ⟨?_, fun hp => ⟨_, MakeCanonical_eq path hp⟩, ?_, by decide⟩
  · constructor
    · intro hnone
      by_contra hcon
      have hp : path.head? = some '/' := by
        by_contra hne
        exact hcon (Or.inr hne)
      rw [MakeCanonical_eq path hp] at hnone
      cases hnone
    · intro hcond
      unfold MakeCanonical
      rw [if_pos hcond]
  · intro hp hsegs
    rw [MakeCanonical_eq path hp, foldl_push_nothing_retained _ hsegs]
    rfl

/-- C18 (witness): the path `/.//../.`, whose segments are all empty, `.` or `..`. -/
theorem MakeCanonical_fails_iff_witness :
    "/.//../.".toList.head? = some '/' ∧
    (∀ s ∈ segments "/.//../.".toList, s = [] ∨ s = ['.'] ∨ s = ['.', '.']) ∧
    MakeCanonical "/.//../.".toList = some ['/'] :=
  ⟨rfl, by decide,
    (MakeCanonical_fails_iff "/.//../.".toList).2.2.1 rfl (by decide)⟩

/-! ## ParseCanonicalPaths -/

theorem pieces_dropWhile (p : Char → Bool) (rest : Str) :
    ((rest.dropWhile p).splitOnP p).filter (fun t => decide (t ≠ [])) =
      (rest.splitOnP p).filter (fun t => decide (t ≠ [])) := by
  induction rest with
  | nil => rfl
  | cons c r ih =>
    by_cases hc : p c = true
    · rw [List.dropWhile_cons_of_pos hc, ih, List.splitOnP_cons, if_pos hc]
      rfl
    · rw [List.dropWhile_cons_of_neg hc]

theorem pieces_of_no_delimiter (p : Char → Bool) (a : Str) (h : ∀ c ∈ a, ¬ p c = true) :
    (a.splitOnP p).filter (fun t => decide (t ≠ [])) = if a ≠ [] then [a] else [] := by
  rw [List.splitOnP_eq_single _ _ h]
  by_cases ha : a = []
  · subst ha; rfl
  · rw [if_pos ha]
    simp [List.filter_cons, ha]

theorem pieces_append_delimiter (p : Char → Bool) (a t : Str) (d : Char)
    (h : ∀ c ∈ a, ¬ p c = true) (hd : p d = true) :
    ((a ++ d :: t).splitOnP p).filter (fun t => decide (t ≠ [])) =
      (if a ≠ [] then [a] else []) ++
        ((d :: t).splitOnP p).filter (fun t => decide (t ≠ [])) := by
  rw [List.splitOnP_first _ _ h d hd, List.splitOnP_cons, if_pos hd]
  by_cases ha : a = []
  · subst ha; rfl
  · rw [if_pos ha]
    simp [List.filter_cons, ha]

theorem ParseCanonicalPaths.pass_results (results : List Str) (next : Str) :
    (if next ≠ [] then
      match MakeCanonical next with
      | some canonical_path => results ++ [canonical_path]
      | none => results
    else results) =
      results ++ (if next ≠ [] then [next] else []).filterMap MakeCanonical := by
  by_cases hn : next = []
  · subst hn; simp
  · rw [if_pos hn, if_pos hn]
    cases hm : MakeCanonical next <;> simp [List.filterMap_cons, hm]

theorem ParseCanonicalPaths.loop_eq (fuel : Nat) (rest : Str) (results : List Str)
    (hf : rest.length < fuel) :
    ParseCanonicalPaths.loop fuel rest results =
      some (results ++ (path_tokens rest).filterMap MakeCanonical) := by
  induction fuel generalizing rest results with
  | zero => omega
  | succ n ih =>
    have hsplit := List.takeWhile_append_dropWhile (fun c => !(c == ',' || c == ' '))
      (rest.dropWhile (fun c => c == ',' || c == ' '))
    have hno : ∀ c ∈ (rest.dropWhile (fun c => c == ',' || c == ' ')).takeWhile
        (fun c => !(c == ',' || c == ' ')),
        ¬ (fun c => c == ',' || c == ' ') c = true := by
      intro c hc
      have := List.mem_takeWhile_imp hc
      simpa using this
    have htok : path_tokens rest =
        path_tokens (rest.dropWhile (fun c => c == ',' || c == ' ')) :=
      (pieces_dropWhile (fun c => c == ',' || c == ' ') rest).symm
    rw [htok]
    unfold ParseCanonicalPaths.loop
    simp only
    by_cases h2 : (rest.dropWhile (fun c => c == ',' || c == ' ')).dropWhile
        (fun c => !(c == ',' || c == ' ')) = []
    · rw [if_pos h2]
      rw [h2, List.append_nil] at hsplit
      rw [hsplit] at hno
      have hk : path_tokens (rest.dropWhile (fun c => c == ',' || c == ' ')) =
          if rest.dropWhile (fun c => c == ',' || c == ' ') ≠ [] then
            [rest.dropWhile (fun c => c == ',' || c == ' ')] else [] :=
        pieces_of_no_delimiter _ _ hno
      rw [hk, hsplit]
      exact congrArg some (ParseCanonicalPaths.pass_results results _)
    · rw [if_neg h2]
      have hlen := scan_progress (fun c => c == ',' || c == ' ')
        (fun c => !(c == ',' || c == ' ')) (fun c => rfl) rest h2
      rw [ih _ _ (by omega)]
      obtain ⟨d, t, hdt⟩ := List.exists_cons_of_ne_nil h2
      have hd : (fun c => c == ',' || c == ' ') d = true := by
        have := List.head_dropWhile_not (fun c => !(c == ',' || c == ' '))
          (rest.dropWhile (fun c => c == ',' || c == ' ')) h2
        simp only [hdt, List.head_cons] at this
        show (d == ',' || d == ' ') = true
        cases hb : (d == ',' || d == ' ')
        · rw [hb] at this
          cases this
        · rfl
      have hk : path_tokens (rest.dropWhile (fun c => c == ',' || c == ' ')) =
          (if (rest.dropWhile (fun c => c == ',' || c == ' ')).takeWhile
              (fun c => !(c == ',' || c == ' ')) ≠ [] then
            [(rest.dropWhile (fun c => c == ',' || c == ' ')).takeWhile
              (fun c => !(c == ',' || c == ' '))] else []) ++
            path_tokens ((rest.dropWhile (fun c => c == ',' || c == ' ')).dropWhile
              (fun c => !(c == ',' || c == ' '))) := by
        conv_lhs => rw [← hsplit]
        rw [hdt]
        exact pieces_append_delimiter _ _ t d hno hd
      rw [hk, List.filterMap_append, ← List.append_assoc]
      exact congrArg
        (fun x => some (x ++ List.filterMap MakeCanonical
          (path_tokens ((rest.dropWhile (fun c => c == ',' || c == ' ')).dropWhile
            (fun c => !(c == ',' || c == ' '))))))
        (ParseCanonicalPaths.pass_results results _)

theorem MakeCanonical_isSome_iff (tok : Str) :
    (MakeCanonical tok).isSome = true ↔ tok.head? = some '/' := by
  constructor
  · intro hs
    by_contra hne
    have : MakeCanonical tok = none := by
      unfold MakeCanonical
      rw [if_pos (Or.inr hne)]
    rw [this] at hs
    cases hs
  · intro hh
    rw [MakeCanonical_eq tok hh]
    rfl

/-- C19: for every text and every result list, `ParseCanonicalPaths` returns the result list
with, appended to it in input order, the canonical forms of the tokens of the text (its
maximal non-empty pieces between `,` and space characters) on which `MakeCanonical`
succeeds, which are exactly the tokens that start with `/`; the other tokens are dropped and
the existing elements of the result list are kept. -/
theorem ParseCanonicalPaths_eq (text : Str) (results : List Str) :
    ParseCanonicalPaths text results =
      some (results ++ (path_tokens text).filterMap MakeCanonical) ∧
    (∀ tok : Str, (MakeCanonical tok).isSome = true ↔ tok.head? = some '/') ∧
    ParseCanonicalPaths "/a, b ,/c//d/,, ./e /f/../g".toList ["/old".toList] =
      some ["/old".toList, "/a".toList, "/c/d".toList, "/g".toList] :=
  ⟨ParseCanonicalPaths.loop_eq _ _ _ (Nat.lt_succ_self _), MakeCanonical_isSome_iff, by decide⟩

/-! ## The sweep of Check -/

/-- C20 (evaluation at the failing input): at time 2000 housekeeping is due for the scenario
object whose two cache entries expired at 1500 and 1600.  The loop erases the first entry
and increments the erased iterator; in a run in which the loop then ends, `Check` leaves the
second entry, which is expired, in the cache.  When housekeeping is not due (time 1000),
`Check` leaves the object as it is. -/
theorem sweep_keeps_expired_entry :
    (Check (scenarioHost 2000 5000 []) staleObject 2000).m_map.map Prod.fst =
      ["Bearer%20dd.ee.ff".toList] ∧
    (∀ e ∈ (Check (scenarioHost 2000 5000 []) staleObject 2000).m_map,
      XrdAccRules.expired (scenarioHost 2000 5000 []).clk (ClockSite.sweep e.1) e.2 = true) ∧
    (Check (scenarioHost 2000 5000 []) staleObject 2000).m_next_clean = 2060 ∧
    (Check (scenarioHost 1000 5000 []) staleObject 1000).m_map.map Prod.fst =
      ["Bearer%20aa.bb.cc".toList, "Bearer%20dd.ee.ff".toList] ∧
    (Check (scenarioHost 1000 5000 []) staleObject 1000).m_next_clean = 1060 := by
  decide

/-! ## Accumulation of grants -/

theorem AddPriv_eq_lor (P : XrdAccPrivTable) (op : Access_Operation) (privs : Nat) :
    AddPriv P op privs = privs ||| AddPriv P op 0 := by
  cases op <;> simp [AddPriv]

theorem fold_includes_of_acc (P : XrdAccPrivTable) (rules : AccessRulesRaw) (path : Str)
    (op : Access_Operation) (acc : Nat) (hacc : acc ||| AddPriv P op 0 = acc) :
    (rules.foldl
        (fun privs rule =>
          if compare_eq path rule.2.length rule.2 then AddPriv P rule.1 privs else privs) acc)
      ||| AddPriv P op 0 =
    rules.foldl
        (fun privs rule =>
          if compare_eq path rule.2.length rule.2 then AddPriv P rule.1 privs else privs) acc := by
  induction rules generalizing acc with
  | nil => exact hacc
  | cons r rs ih =>
    rw [List.foldl_cons]
    apply ih
    split
    · rw [AddPriv_eq_lor P r.1 acc, Nat.lor_assoc, Nat.lor_comm (AddPriv P r.1 0),
        ← Nat.lor_assoc, hacc]
    · exact hacc

theorem fold_includes_of_mem (P : XrdAccPrivTable) (rules : AccessRulesRaw) (path : Str)
    (op : Access_Operation) (stored : Str) (acc : Nat)
    (hmem : (op, stored) ∈ rules) (hpre : stored <+: path) :
    (rules.foldl
        (fun privs rule =>
          if compare_eq path rule.2.length rule.2 then AddPriv P rule.1 privs else privs) acc)
      ||| AddPriv P op 0 =
    rules.foldl
        (fun privs rule =>
          if compare_eq path rule.2.length rule.2 then AddPriv P rule.1 privs else privs) acc := by
  induction rules generalizing acc with
  | nil => cases hmem
  | cons r rs ih =>
    rw [List.foldl_cons]
    rcases List.mem_cons.1 hmem with hr | hr
    · subst hr
      apply fold_includes_of_acc
      have hc : compare_eq path stored.length stored = true := (compare_eq_iff path stored).2 hpre
      simp only [hc, if_true]
      rw [AddPriv_eq_lor P op acc, Nat.lor_assoc, Nat.or_self]
    · exact ih _ hr

/-- C22: grants accumulate without short-circuit or deny.  For every privilege table, rule
list, operation `op` and path, if the list contains a rule `(op, stored)` whose stored path
is a byte-wise beginning of `path`, then `apply(op, path)` includes the privilege that
`AddPriv` assigns to `op` (OR-ing it in changes nothing), whatever other rules the list
holds and wherever the rule stands; with the rules `[(Read,"/x"), (Stat,"/x")]`,
`apply(Read, "/x/y/z")` has the Read privilege set. -/
theorem apply_includes_matching_grant (P : XrdAccPrivTable) (self : XrdAccRules)
    (op : Access_Operation) (path stored : Str)
    (hmem : (op, stored) ∈ self.m_rules) (hpre : stored <+: path) :
    XrdAccRules.apply P self op path ||| AddPriv P op 0 = XrdAccRules.apply P self op path ∧
    AddPriv P op (XrdAccRules.apply P self op path) = XrdAccRules.apply P self op path ∧
    XrdAccRules.apply hostPrivs ⟨[(AOP_Read, "/x".toList), (AOP_Stat, "/x".toList)], 0, []⟩
        AOP_Read "/x/y/z".toList &&& hostPrivs.XrdAccPriv_Read = hostPrivs.XrdAccPriv_Read := by
  have h1 := fold_includes_of_mem P self.m_rules path op stored P.XrdAccPriv_None hmem hpre
  refine ⟨h1, ?_, by decide⟩
  rw [AddPriv_eq_lor]
  exact h1

/-- C22 (witness): the rule `(Read, "/x")` standing last, after a rule of another operation
and a rule that does not match. -/
theorem apply_includes_matching_grant_witness :
    (AOP_Read, "/x".toList) ∈
      [(AOP_Update, "/".toList), (AOP_Stat, "/y".toList), (AOP_Read, "/x".toList)] ∧
    "/x".toList <+: "/x/y/z".toList ∧
    XrdAccRules.apply hostPrivs
        ⟨[(AOP_Update, "/".toList), (AOP_Stat, "/y".toList), (AOP_Read, "/x".toList)], 0, []⟩
        AOP_Read "/x/y/z".toList ||| AddPriv hostPrivs AOP_Read 0 =
      XrdAccRules.apply hostPrivs
        ⟨[(AOP_Update, "/".toList), (AOP_Stat, "/y".toList), (AOP_Read, "/x".toList)], 0, []⟩
        AOP_Read "/x/y/z".toList :=
  ⟨by decide, by decide,
    (apply_includes_matching_grant hostPrivs
      ⟨[(AOP_Update, "/".toList), (AOP_Stat, "/y".toList), (AOP_Read, "/x".toList)], 0, []⟩
      AOP_Read "/x/y/z".toList "/x".toList (by decide) (by decide)).1⟩

/-! ## Username resolution -/

theorem verify_username {Token Enforcer : Type} (h : Host Token Enforcer)
    (self : XrdAccSciTokens) (authz : Str) (token : Token) (issuer : Str)
    (config : IssuerConfig)
    (htoken : h.lib.scitoken_deserialize (authz.drop 9) self.m_valid_issuers_array = some token)
    (hiss : h.lib.scitoken_get_claim_string token "iss".toList = some issuer)
    (hcfg : map_find self.m_issuers issuer = some config) :
    (∀ r, GenerateAcls.verify h self authz = some r →
      some r.username =
        if config.m_map_subject then h.lib.scitoken_get_claim_string token "sub".toList
        else some config.m_default_user) ∧
    (config.m_map_subject = true →
      h.lib.scitoken_get_claim_string token "sub".toList = none →
      GenerateAcls.verify h self authz = none) := by
  unfold GenerateAcls.verify
  simp only [htoken, hiss, hcfg]
  constructor
  · intro r hr
    repeat' (split at hr)
    all_goals first
      | contradiction
      | (simp only [Option.some.injEq] at hr
         subst hr
         rename_i heq
         exact heq.symm)
  · intro hms hsub
    simp only [hms, hsub, if_true]
    repeat' split
    all_goals rfl

/-- C21: username resolution.  For a token that the library deserializes, whose issuer
claim names an issuer with a configuration: whenever `GenerateAcls` succeeds, the resolved
user name is the token's subject claim if the issuer has `map_subject = true`, and the
issuer's `default_user`, whatever the subject claim, if it has `map_subject = false`; and
with `map_subject = true` `GenerateAcls` fails when the subject claim cannot be read. -/
theorem username_resolution {Token Enforcer : Type} (h : Host Token Enforcer)
    (self : XrdAccSciTokens) (authz : Str) (token : Token) (issuer : Str)
    (config : IssuerConfig)
    (htoken : h.lib.scitoken_deserialize (authz.drop 9) self.m_valid_issuers_array = some token)
    (hiss : h.lib.scitoken_get_claim_string token "iss".toList = some issuer)
    (hcfg : map_find self.m_issuers issuer = some config) :
    (config.m_map_subject = true →
      ∀ r, (GenerateAcls h self authz).1 = some r →
        h.lib.scitoken_get_claim_string token "sub".toList = some r.username) ∧
    (config.m_map_subject = true →
      h.lib.scitoken_get_claim_string token "sub".toList = none →
      (GenerateAcls h self authz).1 = none) ∧
    (config.m_map_subject = false →
      ∀ r, (GenerateAcls h self authz).1 = some r → r.username = config.m_default_user) := by
  obtain ⟨h1, h2⟩ := verify_username h self authz token issuer config htoken hiss hcfg
  have hgen : ∀ r, (GenerateAcls h self authz).1 = some r →
      GenerateAcls.verify h self authz = some r := by
    intro r hr
    unfold GenerateAcls at hr
    split at hr
    · exact hr
    · cases hr
  refine ⟨?_, ?_, ?_⟩
  · intro hms r hr
    have := h1 r (hgen r hr)
    rw [hms] at this
    simpa using this.symm
  · intro hms hsub
    unfold GenerateAcls
    split
    · exact h2 hms hsub
    · rfl
  · intro hms r hr
    have := h1 r (hgen r hr)
    rw [hms] at this
    simpa using this

/-- C21 (witness): an issuer with `map_subject = true` and a token whose subject claim is
`bob` resolve to the user name `bob`; the same issuer and a token whose subject claim cannot
be read fail; the scenario issuer (`map_subject = false`, `default_user = alice`) resolves
to `alice`. -/
theorem username_resolution_witness :
    ((GenerateAcls (subjectHost (some "bob".toList)) subjectObject
        "Bearer%20aa.bb.cc".toList).1.map GenerateAclsResult.username = some "bob".toList ∧
      (GenerateAcls (subjectHost none) subjectObject "Bearer%20aa.bb.cc".toList).1.map
        GenerateAclsResult.username = none ∧
      (GenerateAcls (scenarioHost 1000 5000 []) (scenarioObject none)
        "Bearer%20aa.bb.cc".toList).1.map GenerateAclsResult.username =
        some "alice".toList) ∧
    ((subjectHost (some "bob".toList)).lib.scitoken_get_claim_string () "sub".toList =
      some "bob".toList) ∧
    ∀ r, (GenerateAcls (subjectHost (some "bob".toList)) subjectObject
        "Bearer%20aa.bb.cc".toList).1 = some r →
      (subjectHost (some "bob".toList)).lib.scitoken_get_claim_string () "sub".toList =
        some r.username :=
  ⟨by decide, by decide,
    (username_resolution (subjectHost (some "bob".toList)) subjectObject
      "Bearer%20aa.bb.cc".toList ()
      "https://demo.scitokens.org".toList
      ⟨true, "demo".toList, "https://demo.scitokens.org".toList, "alice".toList,
        ["/store".toList], []⟩
      rfl rfl rfl).1 rfl⟩

/-! ## Canonical form -/

theorem render_canonical_form (cs : List Str) (hcs : ∀ c ∈ cs, valid_segment c) :
    canonical_form (MakeCanonical.render cs) := by
  unfold MakeCanonical.render canonical_form
  by_cases hnil : cs = []
  · rw [if_pos hnil]
    exact Or.inl rfl
  · rw [if_neg hnil]
    exact Or.inr ⟨cs, hnil, hcs, rfl⟩

theorem MakeCanonical_canonical_form (raw p : Str) (hp : MakeCanonical raw = some p) :
    canonical_form p := by
  obtain ⟨cs, hcs, rfl⟩ := MakeCanonical_result_form raw p hp
  exact render_canonical_form cs hcs

theorem canonical_form_head (p : Str) (hp : canonical_form p) : p.head? = some '/' := by
  rcases hp with rfl | ⟨segs, hne, _, rfl⟩
  · rfl
  · obtain ⟨d, more, rfl⟩ := List.exists_cons_of_ne_nil hne
    rfl

theorem flatMap_no_double_slash (segs : List Str) (hsegs : ∀ s ∈ segs, valid_segment s)
    (x y : Str) : segs.flatMap (fun s => '/' :: s) ≠ x ++ '/' :: '/' :: y := by
  induction segs generalizing x with
  | nil =>
    intro hh
    cases x <;> cases hh
  | cons s rest ih =>
    have hs := hsegs s (List.mem_cons_self _ _)
    have ih1 := ih (fun z hz => hsegs z (List.mem_cons_of_mem _ hz))
    intro hh
    rw [List.flatMap_cons, List.cons_append] at hh
    -- a segment cannot start with `/`
    have hstart : ∀ (R w : Str), s ++ R ≠ '/' :: w := by
      intro R w hw
      cases hsv : s with
      | nil => exact hs.1 hsv
      | cons c cs =>
        rw [hsv, List.cons_append] at hw
        injection hw with hc _
        exact hs.2.2.2 c (by rw [hsv]; exact List.mem_cons_self _ _) hc
    cases x with
    | nil =>
      rw [List.nil_append] at hh
      injection hh with _ hrest
      exact hstart _ _ hrest
    | cons c x1 =>
      rw [List.cons_append] at hh
      injection hh with _ hrest
      rcases List.append_eq_append_iff.1 hrest with ⟨a, hx, hR⟩ | ⟨a, hsx, hR⟩
      · exact ih1 a hR
      · -- the segment `s` would hold the first `/`
        cases a with
        | nil =>
          rw [List.append_nil] at hsx
          rw [List.nil_append] at hR
          exact ih1 [] (by rw [List.nil_append]; exact hR.symm)
        | cons d a1 =>
          rw [List.cons_append] at hR
          injection hR with hd _
          exact hs.2.2.2 d (by rw [hsx]; simp) hd.symm

theorem canonical_form_no_double_slash (p : Str) (hp : canonical_form p) :
    ¬ (['/', '/'] <:+: p) := by
  rintro ⟨x, y, hxy⟩
  rcases hp with rfl | ⟨segs, _, hsegs, rfl⟩
  · have hlen := congrArg List.length hxy
    simp at hlen
    omega
  · apply flatMap_no_double_slash segs hsegs x y
    rw [← hxy]
    simp

theorem canonical_form_no_trailing_slash (p : Str) (hp : canonical_form p)
    (hlast : p.getLast? = some '/') : p = ['/'] := by
  rcases hp with rfl | ⟨segs, hne, hsegs, rfl⟩
  · rfl
  · exfalso
    have hdl := List.dropLast_append_getLast hne
    have hs := hsegs (segs.getLast hne) (List.getLast_mem hne)
    rw [← hdl, List.flatMap_append, List.flatMap_singleton] at hlast
    obtain ⟨c, cs, hcs⟩ := List.exists_cons_of_ne_nil hs.1
    rw [List.getLast?_append] at hlast
    have hl : ('/' :: segs.getLast hne).getLast? = (segs.getLast hne).getLast? := by
      rw [hcs, List.getLast?_cons_cons]
    rw [hl] at hlast
    obtain ⟨z, hz⟩ : ∃ z, (segs.getLast hne).getLast? = some z := by
      rw [List.getLast?_eq_getLast _ hs.1]
      exact ⟨_, rfl⟩
    rw [hz] at hlast
    change some z = some '/' at hlast
    rw [Option.some.injEq] at hlast
    subst hlast
    have hmem : '/' ∈ segs.getLast hne := by
      rw [List.getLast?_eq_getLast _ hs.1, Option.some.injEq] at hz
      rw [← hz]
      exact List.getLast_mem hs.1
    exact hs.2.2.2 _ hmem rfl

theorem ParseCanonicalPaths_canonical (text : Str) :
    ∀ p ∈ (ParseCanonicalPaths text []).getD [], canonical_form p := by
  unfold ParseCanonicalPaths
  rw [ParseCanonicalPaths.loop_eq _ _ _ (Nat.lt_succ_self _)]
  intro p hp
  simp only [Option.getD_some, List.nil_append, List.mem_filterMap] at hp
  obtain ⟨tok, _, htok⟩ := hp
  exact MakeCanonical_canonical_form tok p htok

theorem issuer_section_canonical (reader : INIReader) (section_name : Str)
    (issuers : List (Str × IssuerConfig))
    (hQ : ∀ e ∈ issuers, config_canonical e.2) :
    ∀ e ∈ Reconfig.issuer_section reader section_name issuers, config_canonical e.2 := by
  unfold Reconfig.issuer_section
  split
  · exact hQ
  · simp only
    split
    · exact hQ
    · split
      · exact hQ
      · split
        · exact hQ
        · unfold map_emplace
          split
          · exact hQ
          · intro e he
            rcases List.mem_append.1 he with he | he
            · exact hQ e he
            · rw [List.mem_singleton] at he
              subst he
              refine ⟨ParseCanonicalPaths_canonical _, ?_⟩
              simp only
              split
              · exact ParseCanonicalPaths_canonical _
              · intro b hb
                cases hb

theorem sections_canonical (reader : INIReader) (pj : Str → JsonValue × Str)
    (secs : List Str) (audiences : List Str) (issuers : List (Str × IssuerConfig))
    (hQ : ∀ e ∈ issuers, config_canonical e.2)
    (res : List Str × List (Str × IssuerConfig))
    (hres : Reconfig.sections reader pj secs audiences issuers = some res) :
    ∀ e ∈ res.2, config_canonical e.2 := by
  induction secs generalizing audiences issuers with
  | nil =>
    simp only [Reconfig.sections, Option.some.injEq] at hres
    subst hres
    exact hQ
  | cons s more ih =>
    simp only [Reconfig.sections] at hres
    split at hres
    · cases hres
    · exact ih _ _ (issuer_section_canonical reader s issuers hQ) hres

theorem Reconfig_canonical {Token Enforcer : Type} (h : Host Token Enforcer)
    (self : XrdAccSciTokens) (hok : (Reconfig h self).1 = true) :
    ∀ e ∈ (Reconfig h self).2.m_issuers, config_canonical e.2 := by
  unfold Reconfig at hok ⊢
  split
  · rename_i hc; rw [if_pos hc] at hok; cases hok
  · rename_i hc
    rw [if_neg hc] at hok
    split
    · rename_i hc2; rw [if_pos hc2] at hok; cases hok
    · rename_i hc2
      rw [if_neg hc2] at hok
      split
      · rename_i heq; rw [heq] at hok; cases hok
      · rename_i audiences issuers heq
        rw [heq] at hok
        simp only at hok ⊢
        split
        · rename_i he; rw [if_pos he] at hok; cases hok
        · simp only [Reconfig.install]
          exact sections_canonical h.reader h.picojson_parse h.reader.Sections [] []
            (fun e he => by cases he) (audiences, issuers) heq

theorem base_path_body_canonical (acl_path acl_authz b : Str) (hb : canonical_form b) :
    ∀ rule ∈ GenerateAcls.base_path_body acl_path acl_authz [] b, canonical_form rule.2 := by
  intro rule hrule
  unfold GenerateAcls.base_path_body at hrule
  split at hrule
  · cases hrule
  · obtain ⟨p, hp⟩ := MakeCanonical_isSome_of_head b acl_path (canonical_form_head b hb)
    have hcp := MakeCanonical_canonical_form _ p hp
    rw [hp] at hrule
    simp only [Option.getD_some, List.nil_append] at hrule
    split at hrule
    · rcases List.mem_cons.1 hrule with rfl | hrule
      · exact hcp
      · rw [List.mem_singleton] at hrule
        subst hrule
        exact hcp
    · split at hrule
      · rcases List.mem_cons.1 hrule with rfl | hrule
        · exact hcp
        · rw [List.mem_singleton] at hrule
          subst hrule
          exact hcp
      · cases hrule

theorem xrd_rules_canonical (config : IssuerConfig) (acls : List Acl)
    (hcfg : config_canonical config) :
    ∀ rule ∈ GenerateAcls.xrd_rules config acls, canonical_form rule.2 := by
  intro rule hrule
  rw [xrd_rules_eq_flatMap, List.mem_flatMap] at hrule
  obtain ⟨acl, _, hacl⟩ := hrule
  unfold GenerateAcls.acl_body at hacl
  split at hacl
  · cases hacl
  · rw [foldl_append_flatMap _ _ (base_path_body_append acl.resource acl.authz),
      List.nil_append, List.mem_flatMap] at hacl
    obtain ⟨b, hb, hrb⟩ := hacl
    exact base_path_body_canonical _ _ b (hcfg.1 b hb) rule hrb

theorem map_find_mem {α : Type} (m : List (Str × α)) (key : Str) (value : α)
    (hf : map_find m key = some value) : (key, value) ∈ m := by
  unfold map_find at hf
  cases hfind : m.find? (fun e => decide (e.1 = key)) with
  | none => rw [hfind] at hf; cases hf
  | some e =>
    rw [hfind] at hf
    change some e.2 = some value at hf
    rw [Option.some.injEq] at hf
    have hmem := List.mem_of_find?_eq_some hfind
    have hkey := List.find?_some hfind
    simp only [decide_eq_true_eq] at hkey
    rw [← hkey, ← hf]
    exact hmem

theorem verify_rules_canonical {Token Enforcer : Type} (h : Host Token Enforcer)
    (self : XrdAccSciTokens) (authz : Str) (r : GenerateAclsResult)
    (hself : ∀ e ∈ self.m_issuers, config_canonical e.2)
    (hr : GenerateAcls.verify h self authz = some r) :
    ∀ rule ∈ r.rules, canonical_form rule.2 := by
  unfold GenerateAcls.verify at hr
  dsimp only at hr
  repeat' (split at hr)
  all_goals first
    | contradiction
    | (simp only [Option.some.injEq] at hr
       subst hr
       rename_i config hfind _ _ _
       exact xrd_rules_canonical config _ (hself _ (map_find_mem _ _ _ hfind)))

/-- C23: canonical form.  Whenever `MakeCanonical` succeeds, its result starts with `/` and
is either exactly `/` or a concatenation of `/` + segment for non-empty segments that hold no
`/` and are neither `.` nor `..`; so it contains no `//` and ends in `/` only if it is `/`.
Consequently every path in the `base_paths` and `restricted_paths` of an issuer stored by a
successful `Reconfig` has this form, and for an object whose stored issuers have such paths
every rule path that `GenerateAcls` returns has this form. -/
theorem canonical_form_of_results {Token Enforcer : Type} (raw p : Str)
    (h : Host Token Enforcer) (self : XrdAccSciTokens) (authz : Str)
    (hp : MakeCanonical raw = some p) :
    (p.head? = some '/' ∧ canonical_form p ∧ ¬ (['/', '/'] <:+: p) ∧
      (p.getLast? = some '/' → p = ['/'])) ∧
    ((Reconfig h self).1 = true →
      ∀ e ∈ (Reconfig h self).2.m_issuers, config_canonical e.2) ∧
    ((∀ e ∈ self.m_issuers, config_canonical e.2) →
      ∀ r, (GenerateAcls h self authz).1 = some r →
        ∀ rule ∈ r.rules, canonical_form rule.2) := by
  have hform := MakeCanonical_canonical_form raw p hp
  refine ⟨⟨canonical_form_head p hform, hform, canonical_form_no_double_slash p hform,
    canonical_form_no_trailing_slash p hform⟩, Reconfig_canonical h self, ?_⟩
  intro hself r hr
  unfold GenerateAcls at hr
  split at hr
  · exact verify_rules_canonical h self authz r hself hr
  · cases hr

/-- C23 (witness): the path `//a/./b/` with canonical form `/a/b`; the issuer stored by the
reload of the end-to-end scenario; and the rules of the scenario token for the entitlement
`("/data/../x/", "read")`. -/
theorem canonical_form_of_results_witness :
    MakeCanonical "//a/./b/".toList = some "/a/b".toList ∧
    ("/a/b".toList.head? = some '/' ∧ canonical_form "/a/b".toList ∧
      ¬ (['/', '/'] <:+: "/a/b".toList) ∧
      ("/a/b".toList.getLast? = some '/' → "/a/b".toList = ['/'])) ∧
    (∀ e ∈ (Reconfig (scenarioHost 1000 5000 []) (freshObject none 1060)).2.m_issuers,
      config_canonical e.2) ∧
    ((GenerateAcls (scenarioHost 1000 5000 [⟨"/data/../x/".toList, "read".toList⟩])
        (scenarioObject none) "Bearer%20aa.bb.cc".toList).1.map GenerateAclsResult.rules =
      some [(AOP_Read, "/store/x".toList), (AOP_Stat, "/store/x".toList)]) ∧
    ∀ r, (GenerateAcls (scenarioHost 1000 5000 [⟨"/data/../x/".toList, "read".toList⟩])
        (scenarioObject none) "Bearer%20aa.bb.cc".toList).1 = some r →
      ∀ rule ∈ r.rules, canonical_form rule.2 :=
  ⟨by decide,
    (canonical_form_of_results "//a/./b/".toList "/a/b".toList (scenarioHost 1000 5000 [])
      (freshObject none 1060) "Bearer%20aa.bb.cc".toList (by decide)).1,
    (canonical_form_of_results "//a/./b/".toList "/a/b".toList (scenarioHost 1000 5000 [])
      (freshObject none 1060) "Bearer%20aa.bb.cc".toList (by decide)).2.1 (by decide),
    by decide,
    (canonical_form_of_results "//a/./b/".toList "/a/b".toList
      (scenarioHost 1000 5000 [⟨"/data/../x/".toList, "read".toList⟩])
      (scenarioObject none) "Bearer%20aa.bb.cc".toList (by decide)).2.2
      ((canonical_form_of_results "//a/./b/".toList "/a/b".toList (scenarioHost 1000 5000 [])
        (freshObject none 1060) "Bearer%20aa.bb.cc".toList (by decide)).2.1 (by decide))⟩

/-! ## Restricted-path filter and base-path anchoring; live hits and housekeeping -/

/-- C8 (as stated, refuted): with `restricted_paths = ["/proj"]` and the base paths `/store`
and `/cache`, the `read` entitlement on `/proj/../../etc` starts with the restricted path,
so it passes the filter, and the rules it contributes are the Read and Stat rules on `/etc`,
once per base path: they are under neither `/store` nor `/cache`. -/
theorem dotdot_resource_passes_restricted_filter :
    GenerateAcls.found_path "/proj/../../etc".toList restrictedConfig.m_restricted_paths = true ∧
    GenerateAcls.xrd_rules restrictedConfig [⟨"/proj/../../etc".toList, "read".toList⟩] =
      [(AOP_Read, "/etc".toList), (AOP_Stat, "/etc".toList),
        (AOP_Read, "/etc".toList), (AOP_Stat, "/etc".toList)] ∧
    ¬ "/store".toList <+: "/etc".toList ∧ ¬ "/cache".toList <+: "/etc".toList := by
  decide

/-- C8 (amended): restricted-path filter.  For every configuration and every entitlement,
wherever it stands in the entitlement list: (1) when `restricted_paths` is non-empty and the
resource path starts with none of them, the entitlement contributes no rule; (2) when the
resource path starts with some (absolute) restricted path, or `restricted_paths` is empty
and the resource path starts with `/`, the entitlement contributes, for every configured
base path in order, the rules of its action on `MakeCanonical(base_path + resource_path)`,
and when moreover the resource path never climbs above its own root with `..`, then for
every configured base path that is canonical that path exists, the base path is a prefix of
it, and the two rules of a `read` (Read, Stat) or of a `write` (Update, Create) on it are
in the rule list; (3) with `restricted_paths = ["/proj"]` and base paths `/store`, `/cache`,
a `read` on `/other/file` yields zero rules and a `read` on `/proj/file` yields Read and
Stat rules under both base paths. -/
theorem restricted_path_filter_anchored (config : IssuerConfig) (before after : List Acl)
    (acl : Acl) :
    (config.m_restricted_paths ≠ [] →
      (∀ rp ∈ config.m_restricted_paths, ¬ rp <+: acl.resource) →
      GenerateAcls.xrd_rules config (before ++ acl :: after) =
        GenerateAcls.xrd_rules config (before ++ after)) ∧
    (((config.m_restricted_paths = [] ∧ acl.resource.head? = some '/') ∨
        ∃ rp ∈ config.m_restricted_paths, rp.head? = some '/' ∧ rp <+: acl.resource) →
      GenerateAcls.xrd_rules config (before ++ acl :: after) =
          GenerateAcls.xrd_rules config before ++
            config.m_base_paths.flatMap
              (fun b => action_rules acl.authz ((MakeCanonical (b ++ acl.resource)).getD [])) ++
            GenerateAcls.xrd_rules config after ∧
        (stays_under_root acl.resource = true →
          ∀ b ∈ config.m_base_paths, (∃ raw, MakeCanonical raw = some b) →
            ∃ p, MakeCanonical (b ++ acl.resource) = some p ∧ b <+: p ∧
              (acl.authz = "read".toList →
                (AOP_Read, p) ∈ GenerateAcls.xrd_rules config (before ++ acl :: after) ∧
                (AOP_Stat, p) ∈ GenerateAcls.xrd_rules config (before ++ acl :: after)) ∧
              (acl.authz = "write".toList →
                (AOP_Update, p) ∈ GenerateAcls.xrd_rules config (before ++ acl :: after) ∧
                (AOP_Create, p) ∈ GenerateAcls.xrd_rules config (before ++ acl :: after)))) ∧
    (GenerateAcls.xrd_rules restrictedConfig [⟨"/other/file".toList, "read".toList⟩] = [] ∧
      GenerateAcls.xrd_rules restrictedConfig [⟨"/proj/file".toList, "read".toList⟩] =
        [(AOP_Read, "/store/proj/file".toList), (AOP_Stat, "/store/proj/file".toList),
          (AOP_Read, "/cache/proj/file".toList), (AOP_Stat, "/cache/proj/file".toList)]) := by
  refine ⟨?_, ?_, by decide, by decide⟩
  · intro hne hno
    simp only [xrd_rules_eq_flatMap, List.flatMap_append, List.flatMap_cons,
      acl_body_filtered config acl hne hno, List.nil_append]
  · intro hpass
    have heq : GenerateAcls.xrd_rules config (before ++ acl :: after) =
        GenerateAcls.xrd_rules config before ++
          config.m_base_paths.flatMap
            (fun b => action_rules acl.authz ((MakeCanonical (b ++ acl.resource)).getD [])) ++
          GenerateAcls.xrd_rules config after := by
      simp only [xrd_rules_eq_flatMap, List.flatMap_append, List.flatMap_cons,
        acl_body_passed config acl hpass, List.append_assoc]
    refine ⟨heq, ?_⟩
    intro hstay b hb hcanon
    have hhead : acl.resource.head? = some '/' := by
      rcases hpass with ⟨_, h⟩ | ⟨rp, _, hrp, ⟨t, ht⟩⟩
      · exact h
      · rw [← ht]
        cases rp with
        | nil => simp at hrp
        | cons c cs => simpa using hrp
    obtain ⟨raw, hraw⟩ := hcanon
    obtain ⟨p, hp, hpre⟩ := MakeCanonical_base_append b raw acl.resource hraw hhead hstay
    have hmem : ∀ r, r ∈ action_rules acl.authz p →
        r ∈ GenerateAcls.xrd_rules config (before ++ acl :: after) := by
      intro r hr
      rw [heq]
      apply List.mem_append_left
      apply List.mem_append_right
      rw [List.mem_flatMap]
      refine ⟨b, hb, ?_⟩
      show r ∈ action_rules acl.authz ((MakeCanonical (b ++ acl.resource)).getD [])
      rw [hp]
      exact hr
    refine ⟨p, hp, hpre, ?_, ?_⟩
    · intro hread
      have hrules : action_rules acl.authz p = [(AOP_Read, p), (AOP_Stat, p)] := by
        unfold action_rules
        rw [if_pos hread]
      constructor
      · exact hmem _ (by rw [hrules]; exact List.mem_cons_self _ _)
      · exact hmem _ (by rw [hrules]; exact List.mem_cons_of_mem _ (List.mem_cons_self _ _))
    · intro hwrite
      have hnr : ¬ acl.authz = "read".toList := by
        rw [hwrite]
        decide
      have hrules : action_rules acl.authz p = [(AOP_Update, p), (AOP_Create, p)] := by
        unfold action_rules
        rw [if_neg hnr, if_pos hwrite]
      constructor
      · exact hmem _ (by rw [hrules]; exact List.mem_cons_self _ _)
      · exact hmem _ (by rw [hrules]; exact List.mem_cons_of_mem _ (List.mem_cons_self _ _))

/-- C8 (witness): the configuration with `restricted_paths = ["/proj"]`; the entitlement on
`/other/file` is dropped from between two others; the `write` entitlement on
`/proj/x/../file`, which starts with `/proj` and stays under its root, contributes its
rules for `/store` and `/cache`, and its Update and Create rules on `/store/proj/file` are
in the rule list, under the canonical base path `/store`. -/
theorem restricted_path_filter_anchored_witness :
    GenerateAcls.xrd_rules restrictedConfig
        ([⟨"/proj/a".toList, "read".toList⟩] ++
          ⟨"/other/file".toList, "read".toList⟩ :: [⟨"/proj/b".toList, "write".toList⟩]) =
      GenerateAcls.xrd_rules restrictedConfig
        ([⟨"/proj/a".toList, "read".toList⟩] ++ [⟨"/proj/b".toList, "write".toList⟩]) ∧
    stays_under_root "/proj/x/../file".toList = true ∧
    MakeCanonical "/store".toList = some "/store".toList ∧
    ∃ p, MakeCanonical ("/store".toList ++ "/proj/x/../file".toList) = some p ∧
      "/store".toList <+: p ∧
      (AOP_Update, p) ∈ GenerateAcls.xrd_rules restrictedConfig
        ([⟨"/proj/a".toList, "read".toList⟩] ++
          ⟨"/proj/x/../file".toList, "write".toList⟩ :: [⟨"/proj/b".toList, "write".toList⟩]) ∧
      (AOP_Create, p) ∈ GenerateAcls.xrd_rules restrictedConfig
        ([⟨"/proj/a".toList, "read".toList⟩] ++
          ⟨"/proj/x/../file".toList, "write".toList⟩ :: [⟨"/proj/b".toList, "write".toList⟩]) :=
  ⟨(restricted_path_filter_anchored restrictedConfig [⟨"/proj/a".toList, "read".toList⟩]
      [⟨"/proj/b".toList, "write".toList⟩] ⟨"/other/file".toList, "read".toList⟩).1
      (by decide) (by decide),
    by decide, by decide,
    (((restricted_path_filter_anchored restrictedConfig [⟨"/proj/a".toList, "read".toList⟩]
      [⟨"/proj/b".toList, "write".toList⟩] ⟨"/proj/x/../file".toList, "write".toList⟩).2.1
      (Or.inr ⟨"/proj".toList, by decide, by decide, by decide⟩)).2 (by decide)
      "/store".toList (by decide) ⟨"/store".toList, by decide⟩).imp
      (fun _ hp => ⟨hp.1, hp.2.1, hp.2.2.2 rfl⟩)⟩

/-- C13 (as stated, refuted): the cache holds rule sets under `Bearer%20aa.bb.cc` (expiry
instant 1500) and `Bearer%20dd.ee.ff` (expiry instant 1600), housekeeping is due since 1060
and the clock reads 1550.  A request with the credential `Bearer%20dd.ee.ff` is a live hit:
the decision is the Read privilege of the cached rule and no call of the verifier is
recorded; yet the cache mapping after the call holds only the entry of
`Bearer%20dd.ee.ff`, because the housekeeping step of the same call erased the expired
entry of `Bearer%20aa.bb.cc`. -/
theorem live_hit_sweep_changes_cache :
    Access.cache_lookup (scenarioHost 1550 5000 []).clk
        (Check (scenarioHost 1550 5000 []) staleObject 1550) "Bearer%20dd.ee.ff".toList =
      some ⟨[(AOP_Read, "/store/d".toList)], 1600, "alice".toList⟩ ∧
    (Access hostPrivs (scenarioHost 1550 5000 []) staleObject ⟨none⟩
        "/store/d/file".toList AOP_Read
        (some (envWithAuthz "Bearer%20dd.ee.ff".toList))).privs = hostPrivs.XrdAccPriv_Read ∧
    (Access hostPrivs (scenarioHost 1550 5000 []) staleObject ⟨none⟩
        "/store/d/file".toList AOP_Read
        (some (envWithAuthz "Bearer%20dd.ee.ff".toList))).calls = [] ∧
    staleObject.m_map.map Prod.fst =
      ["Bearer%20aa.bb.cc".toList, "Bearer%20dd.ee.ff".toList] ∧
    (Access hostPrivs (scenarioHost 1550 5000 []) staleObject ⟨none⟩
        "/store/d/file".toList AOP_Read
        (some (envWithAuthz "Bearer%20dd.ee.ff".toList))).self.m_map.map Prod.fst =
      ["Bearer%20dd.ee.ff".toList] ∧
    (Access hostPrivs (scenarioHost 1550 5000 []) staleObject ⟨none⟩
        "/store/d/file".toList AOP_Read
        (some (envWithAuthz "Bearer%20dd.ee.ff".toList))).self.m_map.map Prod.fst ≠
      staleObject.m_map.map Prod.fst := by
  refine ⟨rfl, ?_, rfl, ?_, ?_, ?_⟩ <;> decide

end XrdSciTokens
